import Mathlib

/-!
Shallow embedding of the grouping/alignment engine of `pipeline/resource.py`.

Modelling conventions:
* timestamps (`datetime`) are integers counting seconds;
* clip durations (Python floats obtained from ffprobe) are rationals;
* filesystem paths are lists of path components;
* the external collaborators (directory walking, `stat`-based creation
  times, ffprobe durations, media-extension recognition) are passed in as
  function parameters, exactly as the repository's tests inject them via
  mocks.
-/

attribute [local semireducible] Rat.mul Rat.add Rat.sub Rat.inv Rat.ofScientific

namespace Podcast

/-- A filesystem path, as its list of components. -/
abbrev FsPath := List String

/-- `resource.MediaFile`: `{source, path, created_at}` (frozen dataclass). -/
structure MediaFile where
  source : String
  path : FsPath
  createdAt : Int
  deriving DecidableEq, Repr

instance : Inhabited MediaFile := ⟨⟨"", [], 0⟩⟩

/-- `resource.MediaGroup`: `{start_time, files}`. -/
structure MediaGroup where
  startTime : Int
  files : List MediaFile
  deriving DecidableEq, Repr

instance : Inhabited MediaGroup := ⟨⟨0, []⟩⟩

/-- `resource.SourceOption`: `{name, path, selected}`. -/
structure SourceOption where
  name : String
  path : FsPath
  selected : Bool := false
  deriving DecidableEq, Repr

/-- Python's `sorted(files, key=lambda item: item.created_at)`: a stable
sort keyed on creation time.  Stable sorts by one key are extensionally
equal, so insertion sort (which also reduces definitionally) stands in for
CPython's Timsort. -/
def sortByCreatedAt (files : List MediaFile) : List MediaFile :=
  files.insertionSort (fun a b => a.createdAt ≤ b.createdAt)

instance : IsTotal MediaFile (fun a b => a.createdAt ≤ b.createdAt) :=
  ⟨fun a b => Int.le_total a.createdAt b.createdAt⟩

instance : IsTrans MediaFile (fun a b => a.createdAt ≤ b.createdAt) :=
  ⟨fun _ _ _ hab hbc => le_trans hab hbc⟩

instance : IsTotal MediaGroup (fun a b => a.startTime ≤ b.startTime) :=
  ⟨fun a b => Int.le_total a.startTime b.startTime⟩

instance : IsTrans MediaGroup (fun a b => a.startTime ≤ b.startTime) :=
  ⟨fun _ _ _ hab hbc => le_trans hab hbc⟩

/-- The recording-walk loop of `group_files_by_start_time`: keep appending to
the current group while `created_at - anchor <= window`, otherwise close the
group (with `start_time = anchor`) and open a new one anchored at the file. -/
def buildGroups (window : Int) (anchor : Int) (current : List MediaFile) :
    List MediaFile → List MediaGroup
  | [] => [⟨anchor, sortByCreatedAt current⟩]
  | f :: rest =>
    if f.createdAt - anchor ≤ window then
      buildGroups window anchor (current ++ [f]) rest
    else
      ⟨anchor, sortByCreatedAt current⟩ :: buildGroups window f.createdAt [f] rest

/-- `resource.group_files_by_start_time`. -/
def groupFilesByStartTime (files : List MediaFile) (window : Int) :
    List MediaGroup :=
  match sortByCreatedAt files with
  | [] => []
  | first :: rest => buildGroups window first.createdAt [first] rest

/-! ### Duration alignment engine (`align_groups_by_media_duration`) -/

/-- DP state `(match_count, total_duration_cost, total_time_cost)`. -/
abbrev DpState := ℕ × ℚ × ℚ

/-- The three backtracking actions recorded in the `prev` table. -/
inductive StepAction where
  | skipCandidate
  | skipAnchor
  | matchStep
  deriving DecidableEq, Repr

/-- `_is_better_state`: lexicographic priority — maximize match count,
then minimize cumulative duration delta, then cumulative time delta. -/
def isBetterState (left : DpState) (right : Option DpState) : Bool :=
  match right with
  | none => true
  | some r =>
    if left.1 ≠ r.1 then decide (left.1 > r.1)
    else if left.2.1 ≠ r.2.1 then decide (left.2.1 < r.2.1)
    else decide (left.2.2 < r.2.2)

/-- `_score_candidate_to_anchor`: `None` when the group has no target
duration or the duration delta exceeds `max(5.0, 0.25 × target)`;
otherwise `(duration_delta, time_delta)`. -/
def scoreCandidateToAnchor (mediaFile : MediaFile) (duration : ℚ)
    (anchorIndex : ℕ) (groupAnchorTimes : List Int)
    (groupTargets : List (Option ℚ)) : Option (ℚ × ℚ) :=
  match groupTargets.getD anchorIndex none with
  | none => none
  | some targetDuration =>
    let durationDelta := |duration - targetDuration|
    let maxAllowedDelta := max 5 (targetDuration * (1 / 4))
    if durationDelta > maxAllowedDelta then none
    else
      some (durationDelta,
        |((mediaFile.createdAt - groupAnchorTimes.getD anchorIndex 0 : Int) : ℚ)|)

/-- The `dp` and `prev` grids of `_select_monotonic_matches`, as functions
from cell coordinates. -/
structure DpTables where
  dp : ℕ → ℕ → Option DpState
  prev : ℕ → ℕ → Option (StepAction × ℕ × ℕ)

/-- `dp[0][0] = (0, 0.0, 0.0)`, everything else unset. -/
def initTables : DpTables where
  dp := fun i j => if i = 0 ∧ j = 0 then some (0, 0, 0) else none
  prev := fun _ _ => none

/-- One guarded write into the grids: replace `dp[i][j]`/`prev[i][j]` when
`_is_better_state` approves the new state. -/
def pushState (t : DpTables) (i j : ℕ) (s : DpState)
    (step : StepAction × ℕ × ℕ) : DpTables :=
  if isBetterState s (t.dp i j) then
    { dp := fun a b => if a = i ∧ b = j then some s else t.dp a b
      prev := fun a b => if a = i ∧ b = j then some step else t.prev a b }
  else t

/-- The body of the double loop of `_select_monotonic_matches`: propagate the
state of one cell via skip-candidate, skip-anchor and match transitions. -/
def processCell (matchable : List (MediaFile × ℚ)) (allowed : List ℕ)
    (times : List Int) (targets : List (Option ℚ))
    (t : DpTables) (cell : ℕ × ℕ) : DpTables :=
  let ci := cell.1
  let ap := cell.2
  let n := matchable.length
  let m := allowed.length
  match t.dp ci ap with
  | none => t
  | some state =>
    let t1 :=
      if ci < n then pushState t (ci + 1) ap state (.skipCandidate, ci, ap) else t
    let t2 :=
      if ap < m then pushState t1 ci (ap + 1) state (.skipAnchor, ci, ap) else t1
    if ci < n ∧ ap < m then
      let md := matchable.getD ci default
      let anchorIndex := allowed.getD ap 0
      match scoreCandidateToAnchor md.1 md.2 anchorIndex times targets with
      | none => t2
      | some score =>
        pushState t2 (ci + 1) (ap + 1)
          (state.1 + 1, state.2.1 + score.1, state.2.2 + score.2)
          (.matchStep, ci, ap)
    else t2

/-- Row-major iteration order of the DP double loop. -/
def dpCells (n m : ℕ) : List (ℕ × ℕ) :=
  (List.range (n + 1)).flatMap (fun i => (List.range (m + 1)).map (fun j => (i, j)))

/-- Fill both grids by folding `processCell` over the cells in loop order. -/
def runDp (matchable : List (MediaFile × ℚ)) (allowed : List ℕ)
    (times : List Int) (targets : List (Option ℚ)) : DpTables :=
  (dpCells matchable.length allowed.length).foldl
    (processCell matchable allowed times targets) initTables

/-- The backtracking `while` loop: follow `prev` pointers from the final
cell, collecting `match` edges; `fuel` bounds the walk (the recorded
pointers always decrease `ci + ap`, so `n + m` steps suffice). -/
def backtrackAux (t : DpTables) (matchable : List (MediaFile × ℚ))
    (allowed : List ℕ) : ℕ → ℕ → ℕ → List (ℕ × MediaFile)
  | 0, _, _ => []
  | fuel + 1, ci, ap =>
    if ci = 0 ∧ ap = 0 then []
    else
      match t.prev ci ap with
      | none => []
      | some (action, pi, pj) =>
        (if action = .matchStep then
          [(allowed.getD pj 0, (matchable.getD pi default).1)]
        else []) ++ backtrackAux t matchable allowed fuel pi pj

/-- `_select_monotonic_matches`: order-preserving DP assignment of candidate
files to anchor positions; returns `(anchor_index, file)` pairs. -/
def selectMonotonicMatches (durFn : FsPath → Option ℚ)
    (candidates : List MediaFile) (allowedAnchorIndices : List ℕ)
    (groupAnchorTimes : List Int) (groupTargets : List (Option ℚ)) :
    List (ℕ × MediaFile) :=
  if candidates.isEmpty ∨ allowedAnchorIndices.isEmpty then []
  else
    let sortedCandidates := sortByCreatedAt candidates
    let matchable := sortedCandidates.filterMap
      (fun f => (durFn f.path).map (fun d => (f, d)))
    let n := matchable.length
    let m := allowedAnchorIndices.length
    if n = 0 ∨ m = 0 then []
    else
      let t := runDp matchable allowedAnchorIndices groupAnchorTimes groupTargets
      (backtrackAux t matchable allowedAnchorIndices (n + m) n m).reverse

/-- Insertion-ordered dict append used to build `day_files_by_source`
(`setdefault(source, []).append(file)`). -/
def appendDayFile (m : List (String × List MediaFile)) (f : MediaFile) :
    List (String × List MediaFile) :=
  if m.any (fun kv => decide (kv.1 = f.source)) then
    m.map (fun kv => if kv.1 = f.source then (kv.1, kv.2 ++ [f]) else kv)
  else m ++ [(f.source, [f])]

/-- `day_files_by_source`: day-matched files bucketed by source, preserving
first-appearance ordering of sources. -/
def dayFilesBySource (files : List MediaFile) : List (String × List MediaFile) :=
  files.foldl appendDayFile []

/-- Python's `max(items, key=lambda item: len(item[1]))`: the first entry
with maximal list length (later entries replace only when strictly longer). -/
def maxBySize (m : List (String × List MediaFile)) :
    Option (String × List MediaFile) :=
  match m with
  | [] => none
  | kv :: rest =>
    some (rest.foldl (fun best x => if x.2.length > best.2.length then x else best) kv)

/-- Primary-source selection in `align_groups_by_media_duration`: the source
with the most day-matched files, `none` when there are no day files. -/
def primarySourceName (files : List MediaFile) : Option String :=
  (maxBySize (dayFilesBySource files)).map (fun kv => kv.1)

/-- `groups.sort(key=lambda group: group.start_time)` (stable). -/
def sortGroupsByStartTime (groups : List MediaGroup) : List MediaGroup :=
  groups.insertionSort (fun a b => a.startTime ≤ b.startTime)

/-- The scaffold step of the aligner: keep only primary-source files inside
each group, drop groups left empty, and sort by start time. -/
def scaffoldGroups (groups : List MediaGroup) (primary : String) :
    List MediaGroup :=
  sortGroupsByStartTime
    ((groups.map (fun g =>
        { g with files := g.files.filter (fun f => decide (f.source = primary)) })).filter
      (fun g => !g.files.isEmpty))

/-- A group's target duration: the maximum probed duration among its files,
`none` when no file has a probe result. -/
def groupTarget (durFn : FsPath → Option ℚ) (g : MediaGroup) : Option ℚ :=
  match g.files.filterMap (fun f => durFn f.path) with
  | [] => none
  | d :: ds => some (ds.foldl max d)

/-- `SPILLOVER_WINDOW = timedelta(hours=6)`, in seconds. -/
def SPILLOVER_WINDOW : Int := 6 * 3600

/-- Python-dict insertion for `{media_file.path: media_file for ...}`:
an existing key keeps its position but takes the new value. -/
def insertReplace (m : List (FsPath × MediaFile)) (k : FsPath) (v : MediaFile) :
    List (FsPath × MediaFile) :=
  if m.any (fun kv => decide (kv.1 = k)) then
    m.map (fun kv => if kv.1 = k then (k, v) else kv)
  else m ++ [(k, v)]

/-- Python-dict `setdefault`: insert at the end only when the key is new. -/
def setdefaultPath (m : List (FsPath × MediaFile)) (k : FsPath) (v : MediaFile) :
    List (FsPath × MediaFile) :=
  if m.any (fun kv => decide (kv.1 = k)) then m else m ++ [(k, v)]

/-- One iteration of the aligner's re-scan loop: skip non-media files,
files with unreadable creation times and — when the source has same-day
files — files outside the spillover window; otherwise `setdefault` the
file into the pool dict. -/
def scanStep (createdFn : FsPath → Option Int) (isMediaFn : FsPath → Bool)
    (sourceName : String) (hasDayFiles : Bool)
    (spilloverStart spilloverEnd : Int)
    (m : List (FsPath × MediaFile)) (filePath : FsPath) :
    List (FsPath × MediaFile) :=
  if isMediaFn filePath = false then m
  else
    match createdFn filePath with
    | none => m
    | some createdAt =>
      if hasDayFiles = true ∧
          (createdAt < spilloverStart ∨ createdAt ≥ spilloverEnd) then m
      else
        setdefaultPath m filePath ⟨sourceName, filePath, createdAt⟩

/-- Per-source candidate-pool construction inside the aligner: same-day
files, plus a directory re-scan admitting media files inside the spillover
window (the filter is skipped when the source has no same-day files),
deduplicated by path via the dict keyed on `file_path`. -/
def candidatePool (scanFn : FsPath → List FsPath)
    (createdFn : FsPath → Option Int) (isMediaFn : FsPath → Bool)
    (source : SourceOption) (sourceDayFiles : List MediaFile)
    (dayStart dayEnd : Int) : List MediaFile :=
  let spilloverStart := dayStart - SPILLOVER_WINDOW
  let spilloverEnd := dayEnd + SPILLOVER_WINDOW
  let initial := sourceDayFiles.foldl (fun m f => insertReplace m f.path f) []
  let afterScan := (scanFn source.path).foldl
    (scanStep createdFn isMediaFn source.name (!sourceDayFiles.isEmpty)
      spilloverStart spilloverEnd) initial
  afterScan.map (fun kv => kv.2)

/-- `groups[anchor_index].files.append(media_file)` (no-op out of range,
which the aligner never hits). -/
def appendFileToGroup (gs : List MediaGroup) (i : ℕ) (f : MediaFile) :
    List MediaGroup :=
  match gs.get? i with
  | none => gs
  | some g => gs.set i { g with files := g.files ++ [f] }

/-- The per-secondary-source iteration of the aligner: build the candidate
pool, run the monotonic matcher, append matches into the scaffold groups and
record the count of matched files outside the day window. -/
def alignSourceStep (scanFn : FsPath → List FsPath)
    (createdFn : FsPath → Option Int) (durFn : FsPath → Option ℚ)
    (isMediaFn : FsPath → Bool) (dayMatchedFiles : List MediaFile)
    (dayStart dayEnd : Int) (primary : String) (allowed : List ℕ)
    (times : List Int) (targets : List (Option ℚ))
    (acc : List MediaGroup × List (String × ℕ)) (source : SourceOption) :
    List MediaGroup × List (String × ℕ) :=
  if source.name = primary then acc
  else
    let sourceDayFiles :=
      (((dayFilesBySource dayMatchedFiles).find?
        (fun kv => decide (kv.1 = source.name))).map (fun kv => kv.2)).getD []
    let pool := candidatePool scanFn createdFn isMediaFn source sourceDayFiles
      dayStart dayEnd
    let monotonicMatches := selectMonotonicMatches durFn pool allowed times targets
    let newGroups := monotonicMatches.foldl
      (fun gs im => appendFileToGroup gs im.1 im.2) acc.1
    let outsideMatches := monotonicMatches.filter
      (fun im => decide (im.2.createdAt < dayStart ∨ im.2.createdAt ≥ dayEnd))
    let counts :=
      if outsideMatches.isEmpty then acc.2
      else acc.2 ++ [(source.name, outsideMatches.length)]
    (newGroups, counts)

/-- `align_groups_by_media_duration`, functionally: returns the final group
list (the Python version mutates `groups` in place) together with the
`source name → outside-day match count` report. -/
def alignGroupsByMediaDuration (scanFn : FsPath → List FsPath)
    (createdFn : FsPath → Option Int) (durFn : FsPath → Option ℚ)
    (isMediaFn : FsPath → Bool) (groups : List MediaGroup)
    (selectedSources : List SourceOption) (dayMatchedFiles : List MediaFile)
    (dayStart dayEnd : Int) : List MediaGroup × List (String × ℕ) :=
  if groups.isEmpty then (groups, [])
  else
    match primarySourceName dayMatchedFiles with
    | none => (groups, [])
    | some primary =>
      let groups1 := scaffoldGroups groups primary
      if groups1.isEmpty then (groups1, [])
      else
        let times := groups1.map (fun g => g.startTime)
        let targets := groups1.map (fun g => groupTarget durFn g)
        if targets.all (fun t => t.isNone) then (groups1, [])
        else
          let allowed := (List.range targets.length).filter
            (fun i => (targets.getD i none).isSome)
          let afterSources := selectedSources.foldl
            (alignSourceStep scanFn createdFn durFn isMediaFn dayMatchedFiles
              dayStart dayEnd primary allowed times targets) (groups1, [])
          let finalGroups := ((afterSources.1.map (fun g =>
              { g with files := sortByCreatedAt g.files })).filter
            (fun g => !g.files.isEmpty))
          (sortGroupsByStartTime finalGroups, afterSources.2)

/-! ### Group materializer (`allocate_episode_directories`,
`plan_group_destinations`, `move_groups_to_episodes`)

The filesystem is explicit state: the sets (lists) of existing directory
and file paths.  Unbounded `while` searches are modelled with a fuel
parameter and an `Option` result, `none` standing for non-termination /
a raised exception; every fuel value used is generous enough for the
concrete runs below. -/

/-- Explicit filesystem state: existing directories and files. -/
structure Fs where
  dirs : List FsPath
  files : List FsPath
  deriving DecidableEq, Repr

/-- `path.exists()`. -/
def pathExists (fs : Fs) (p : FsPath) : Bool :=
  decide (p ∈ fs.dirs ∨ p ∈ fs.files)

/-- All nonempty prefixes of a path, shortest first (the chain of
directories `mkdir(parents=True)` ensures). -/
def pathPrefixChain (p : FsPath) : List FsPath :=
  (List.range p.length).map (fun i => p.take (i + 1))

/-- `p.mkdir(parents=True, exist_ok=True)`: create every missing prefix. -/
def mkdirParentsExistOk (fs : Fs) (p : FsPath) : Fs :=
  { fs with
    dirs := (pathPrefixChain p).foldl
      (fun ds q => if q ∈ ds then ds else ds ++ [q]) fs.dirs }

/-- `p.mkdir(parents=True, exist_ok=False)`: error when `p` itself exists. -/
def mkdirStrict (fs : Fs) (p : FsPath) : Option Fs :=
  if p ∈ fs.dirs ∨ p ∈ fs.files then none
  else some (mkdirParentsExistOk fs p)

/-- The directory name `f"episode_{n}"`. -/
def episodeName (n : ℕ) : String := "episode_" ++ toString n

/-- `EPISODE_PATTERN = re.compile(r"^episode_(\d+)$")`, applied to a
directory name: the parsed number when the whole name matches. -/
def parseEpisodeNumber (name : String) : Option ℕ :=
  if name.startsWith "episode_" then (name.drop 8).toNat? else none

/-- `entry` is a direct child of `root`. -/
def isChildOf (root p : FsPath) : Bool :=
  decide (p.take root.length = root ∧ p.length = root.length + 1)

/-- `entry.name`: the last path component. -/
def pathName (p : FsPath) : String := p.getLastD ""

/-- `find_existing_episode_numbers`: numbers of the `episode_*` directories
directly under the podcast root, ascending. -/
def findExistingEpisodeNumbers (fs : Fs) (podcastRoot : FsPath) : List ℕ :=
  if pathExists fs podcastRoot = false then []
  else
    ((fs.dirs.filter (fun d => isChildOf podcastRoot d)).filterMap
      (fun d => parseEpisodeNumber (pathName d))).insertionSort (· ≤ ·)

/-- The `while len(episode_directories) < group_count` search of
`allocate_episode_directories`, with fuel. -/
def allocateLoop (fs : Fs) (podcastRoot : FsPath) :
    ℕ → ℕ → ℕ → List FsPath → Option (List FsPath)
  | 0, _, _, _ => none
  | fuel + 1, need, nextNumber, acc =>
    if acc.length ≥ need then some acc
    else
      let candidate := podcastRoot ++ [episodeName nextNumber]
      if pathExists fs candidate then
        allocateLoop fs podcastRoot fuel need (nextNumber + 1) acc
      else
        allocateLoop fs podcastRoot fuel need (nextNumber + 1) (acc ++ [candidate])

/-- `allocate_episode_directories`: ensure the podcast root exists (a
mutation!), then pick `group_count` fresh `episode_N` directory paths
starting after the highest existing number. -/
def allocateEpisodeDirectories (fs : Fs) (podcastRoot : FsPath)
    (groupCount : ℕ) : Option (Fs × List FsPath) :=
  let fs1 := mkdirParentsExistOk fs podcastRoot
  let existing := findExistingEpisodeNumbers fs1 podcastRoot
  let nextNumber := match existing.getLast? with | some k => k + 1 | none => 1
  (allocateLoop fs1 podcastRoot
      (groupCount + fs1.dirs.length + fs1.files.length + 1) groupCount
      nextNumber []).map (fun episodeDirectories => (fs1, episodeDirectories))

/-- `candidate.with_name(...)`: replace the last component. -/
def withName (p : FsPath) (name : String) : FsPath := p.dropLast ++ [name]

/-- `Path.stem` / `Path.suffix`: split the name at its last dot, provided
the dot is neither the first nor the last character. -/
def splitStemSuffix (name : String) : String × String :=
  let chars := name.toList
  let n := chars.length
  match ((List.range n).filter (fun i => decide (chars.getD i ' ' = '.'))).getLast? with
  | some i =>
    if 0 < i ∧ i + 1 < n then (⟨chars.take i⟩, ⟨chars.drop i⟩) else (name, "")
  | none => (name, "")

/-- The `while True` collision loop of `plan_group_destinations`: try
`{stem}_{counter}{suffix}` for `counter = 1, 2, …` until a name exists
neither on disk nor among the already-reserved paths. -/
def findFreeName (fs : Fs) (reserved : List FsPath) (candidate : FsPath) :
    ℕ → ℕ → Option FsPath
  | 0, _ => none
  | fuel + 1, counter =>
    let stemPart := (splitStemSuffix (pathName candidate)).1
    let suffixPart := (splitStemSuffix (pathName candidate)).2
    let nextCandidate :=
      withName candidate (stemPart ++ "_" ++ toString counter ++ suffixPart)
    if pathExists fs nextCandidate = false ∧ nextCandidate ∉ reserved then
      some nextCandidate
    else findFreeName fs reserved candidate fuel (counter + 1)

/-- The per-file loop of `plan_group_destinations`, threading the
`reserved_paths` set and the `planned` list. -/
def planAux (fs : Fs) (episodeDir : FsPath) :
    List MediaFile → List FsPath → List FsPath → Option (List FsPath)
  | [], _, planned => some planned
  | mf :: rest, reserved, planned =>
    let candidate := episodeDir ++ [pathName mf.path]
    let chosen :=
      if pathExists fs candidate = true ∨ candidate ∈ reserved then
        findFreeName fs reserved candidate
          (fs.dirs.length + fs.files.length + reserved.length + 1) 1
      else some candidate
    match chosen with
    | none => none
    | some c => planAux fs episodeDir rest (reserved ++ [c]) (planned ++ [c])

/-- `plan_group_destinations`. -/
def planGroupDestinations (files : List MediaFile) (episodeDir : FsPath)
    (fs : Fs) : Option (List FsPath) :=
  planAux fs episodeDir files [] []

/-- The planning loop of `move_groups_to_episodes` building `copy_jobs`:
in a live run each episode directory is created (strictly) before its
group is planned; in a dry run the filesystem is left alone. -/
def planJobsLoop (dryRun : Bool) :
    Fs → ℕ → List (MediaGroup × FsPath) → List (ℕ × MediaFile × FsPath) →
      Option (Fs × List (ℕ × MediaFile × FsPath))
  | fs, _, [], jobs => some (fs, jobs)
  | fs, groupIndex, (g, episodeDir) :: rest, jobs =>
    let mkdirResult := if dryRun then some fs else mkdirStrict fs episodeDir
    match mkdirResult with
    | none => none
    | some fs1 =>
      match planGroupDestinations g.files episodeDir fs1 with
      | none => none
      | some destinations =>
        planJobsLoop dryRun fs1 (groupIndex + 1) rest
          (jobs ++ (List.zip g.files destinations).map
            (fun fd => (groupIndex, fd.1, fd.2)))

/-- `move_groups_to_episodes`, up to the point where `copy_jobs` is
complete: directory allocation plus sequential per-group destination
planning.  The concurrent byte-copy phase executes the jobs as computed
here and is not modelled; the returned jobs are exactly the per-file
`(group, source file, destination)` decisions. -/
def moveGroupsToEpisodes (dryRun : Bool) (groups : List MediaGroup)
    (podcastRoot : FsPath) (fs : Fs) :
    Option (Fs × List (ℕ × MediaFile × FsPath)) :=
  match allocateEpisodeDirectories fs podcastRoot groups.length with
  | none => none
  | some (fs1, episodeDirectories) =>
    planJobsLoop dryRun fs1 0 (List.zip groups episodeDirectories) []

/-! ### Concrete data used by the worked example, witnesses and
counterexamples -/

/-- `start_time` is the minimum `created_at` among the group's files. -/
def startTimeIsMin (g : MediaGroup) : Prop :=
  (∀ f ∈ g.files, g.startTime ≤ f.createdAt) ∧
    ∃ f ∈ g.files, f.createdAt = g.startTime

instance (g : MediaGroup) : Decidable (startTimeIsMin g) := by
  unfold startTimeIsMin; infer_instance

/-- Worked-example candidate durations (the clock-skewed secondary files). -/
def exDur : FsPath → Option ℚ
  | ["ninja", "T832.MOV"] => some 8888.88
  | ["ninja", "T833.MOV"] => some 5147.14
  | ["ninja", "T834.MOV"] => some 1473.47
  | _ => none

/-- Worked-example candidates, creation clock skewed years into the future. -/
def exCand1 : MediaFile := ⟨"NINJAV", ["ninja", "T832.MOV"], 1890000000⟩

def exCand2 : MediaFile := ⟨"NINJAV", ["ninja", "T833.MOV"], 1890009000⟩

def exCand3 : MediaFile := ⟨"NINJAV", ["ninja", "T834.MOV"], 1890018000⟩

/-- Worked-example group anchor times 12:17:33, 12:28:00, 14:55:52,
16:32:12 as seconds of day. -/
def exTimes : List Int := [44253, 44880, 53752, 59532]

/-- Worked-example target durations. -/
def exTargets : List (Option ℚ) :=
  [some 588.8, some 8338.6, some 5116.9, some 1447.3]

/-- The worked example's match set. -/
def exMatches : List (ℕ × MediaFile) :=
  selectMonotonicMatches exDur [exCand1, exCand2, exCand3] [0, 1, 2, 3]
    exTimes exTargets

/-- Past-skew scenario: the primary day file. -/
def cePrim : MediaFile := ⟨"A", ["audio", "p.wav"], 1000⟩

/-- Past-skew scenario: the secondary file created before the group start. -/
def ceSec : MediaFile := ⟨"B", ["volB", "b.mov"], 500⟩

def ceScan : FsPath → List FsPath :=
  fun p => if p = ["volB"] then [["volB", "b.mov"]] else []

def ceCreated : FsPath → Option Int :=
  fun p =>
    if p = ["volB", "b.mov"] then some 500
    else if p = ["audio", "p.wav"] then some 1000 else none

def ceDur : FsPath → Option ℚ :=
  fun p =>
    if p = ["volB", "b.mov"] then some 100
    else if p = ["audio", "p.wav"] then some 100 else none

def ceSources : List SourceOption := [⟨"A", ["audio"], true⟩, ⟨"B", ["volB"], true⟩]

/-- Past-skew scenario: the aligned groups (secondary source has no
same-day files, so the spillover filter is skipped and its past-dated file
is admitted and matched). -/
def ceAligned : List MediaGroup :=
  (alignGroupsByMediaDuration ceScan ceCreated ceDur (fun _ => true)
    (groupFilesByStartTime [cePrim] 300) ceSources [cePrim] 0 86400).1

/-- Two files sharing one creation timestamp (for the permutation claim). -/
def cxF1 : MediaFile := ⟨"A", ["a"], 0⟩

def cxF2 : MediaFile := ⟨"A", ["b"], 0⟩

/-- Materializer scenario: two source files with the same base name. -/
def mzF1 : MediaFile := ⟨"A", ["src", "clip.mov"], 10⟩

def mzF2 : MediaFile := ⟨"A", ["other", "clip.mov"], 20⟩

def mzGroups : List MediaGroup := [⟨10, [mzF1, mzF2]⟩]

/-- An initial filesystem that already has the podcast root. -/
def mzFsWithRoot : Fs := ⟨[["pod"]], []⟩

/-- An initial filesystem without the podcast root. -/
def mzFsEmpty : Fs := ⟨[], []⟩

/-- The copy jobs planned for `mzGroups` under podcast root `["pod"]`. -/
def mzJobs : List (ℕ × MediaFile × FsPath) :=
  [(0, mzF1, ["pod", "episode_1", "clip.mov"]),
   (0, mzF2, ["pod", "episode_1", "clip_1.mov"])]

/-- Shape discipline of one recorded `prev` entry: a skip-candidate edge
into cell `(ci, ap)` comes from `(ci - 1, ap)` with an in-range candidate,
a skip-anchor edge from `(ci, ap - 1)` with an in-range anchor, and a match
edge from `(ci - 1, ap - 1)` with an admissible (candidate, anchor) pair. -/
def stepOK (matchable : List (MediaFile × ℚ)) (allowed : List ℕ)
    (times : List Int) (targets : List (Option ℚ)) (ci ap : ℕ)
    (step : StepAction × ℕ × ℕ) : Prop :=
  match step with
  | (.skipCandidate, pi, pj) => pi + 1 = ci ∧ pj = ap ∧ pi < matchable.length
  | (.skipAnchor, pi, pj) => pi = ci ∧ pj + 1 = ap ∧ pj < allowed.length
  | (.matchStep, pi, pj) =>
    pi + 1 = ci ∧ pj + 1 = ap ∧ pi < matchable.length ∧ pj < allowed.length ∧
      scoreCandidateToAnchor (matchable.getD pi default).1
        (matchable.getD pi default).2 (allowed.getD pj 0) times targets ≠ none

/-- Every entry of the `prev` grid satisfies the shape discipline. -/
def PrevWF (matchable : List (MediaFile × ℚ)) (allowed : List ℕ)
    (times : List Int) (targets : List (Option ℚ)) (t : DpTables) : Prop :=
  ∀ ci ap step, t.prev ci ap = some step →
    stepOK matchable allowed times targets ci ap step

/-! ### Theorems: the time-window clusterer -/

theorem sortByCreatedAt_perm (files : List MediaFile) :
    (sortByCreatedAt files).Perm files :=
  List.perm_insertionSort _ files

theorem sortByCreatedAt_sorted (files : List MediaFile) :
    (sortByCreatedAt files).Pairwise (fun a b => a.createdAt ≤ b.createdAt) :=
  List.sorted_insertionSort _ files

theorem buildGroups_join_perm (window : Int) :
    ∀ (rest : List MediaFile) (anchor : Int) (current : List MediaFile),
      (((buildGroups window anchor current rest).map (fun g => g.files)).flatten).Perm
        (current ++ rest)
  | [], anchor, current => by
    simpa [buildGroups] using sortByCreatedAt_perm current
  | f :: rest, anchor, current => by
    by_cases h : f.createdAt - anchor ≤ window
    · have ih := buildGroups_join_perm window rest anchor (current ++ [f])
      simpa [buildGroups, h, List.append_assoc] using ih
    · have ih := buildGroups_join_perm window rest f.createdAt [f]
      have hc := sortByCreatedAt_perm current
      simpa [buildGroups, h] using hc.append ih

theorem buildGroups_files_sorted (window : Int) :
    ∀ (rest : List MediaFile) (anchor : Int) (current : List MediaFile),
      ∀ g ∈ buildGroups window anchor current rest,
        g.files.Pairwise (fun a b => a.createdAt ≤ b.createdAt)
  | [], anchor, current => by
    intro g hg
    simp [buildGroups] at hg
    subst hg
    exact sortByCreatedAt_sorted current
  | f :: rest, anchor, current => by
    intro g hg
    by_cases h : f.createdAt - anchor ≤ window
    · simp only [buildGroups, if_pos h] at hg
      exact buildGroups_files_sorted window rest anchor (current ++ [f]) g hg
    · simp only [buildGroups, if_neg h, List.mem_cons] at hg
      rcases hg with hg | hg
      · subst hg
        exact sortByCreatedAt_sorted current
      · exact buildGroups_files_sorted window rest f.createdAt [f] g hg

theorem buildGroups_min (window : Int) :
    ∀ (rest : List MediaFile) (anchor : Int) (current : List MediaFile),
      (∀ x ∈ current, anchor ≤ x.createdAt) →
      (∃ x ∈ current, x.createdAt = anchor) →
      (∀ x ∈ rest, anchor ≤ x.createdAt) →
      rest.Pairwise (fun a b => a.createdAt ≤ b.createdAt) →
      ∀ g ∈ buildGroups window anchor current rest, startTimeIsMin g
  | [], anchor, current => by
    intro hcur hex _ _ g hg
    simp [buildGroups] at hg
    subst hg
    refine ⟨fun x hx => hcur x ?_, ?_⟩
    · exact (sortByCreatedAt_perm current).mem_iff.mp hx
    · obtain ⟨x, hx, hxa⟩ := hex
      exact ⟨x, (sortByCreatedAt_perm current).mem_iff.mpr hx, hxa⟩
  | f :: rest, anchor, current => by
    intro hcur hex hrest hpw g hg
    by_cases h : f.createdAt - anchor ≤ window
    · simp only [buildGroups, if_pos h] at hg
      refine buildGroups_min window rest anchor (current ++ [f]) ?_ ?_ ?_ ?_ g hg
      · intro x hx
        rcases List.mem_append.mp hx with hx | hx
        · exact hcur x hx
        · rw [List.mem_singleton.mp hx]
          exact hrest f (List.mem_cons_self f rest)
      · obtain ⟨x, hx, hxa⟩ := hex
        exact ⟨x, List.mem_append.mpr (Or.inl hx), hxa⟩
      · exact fun x hx => hrest x (List.mem_cons_of_mem f hx)
      · exact hpw.of_cons
    · simp only [buildGroups, if_neg h, List.mem_cons] at hg
      rcases hg with hg | hg
      · subst hg
        refine ⟨fun x hx => hcur x ?_, ?_⟩
        · exact (sortByCreatedAt_perm current).mem_iff.mp hx
        · obtain ⟨x, hx, hxa⟩ := hex
          exact ⟨x, (sortByCreatedAt_perm current).mem_iff.mpr hx, hxa⟩
      · refine buildGroups_min window rest f.createdAt [f] ?_ ?_ ?_ hpw.of_cons g hg
        · intro x hx
          rcases List.mem_singleton.mp hx with rfl
          exact le_refl _
        · exact ⟨f, List.mem_singleton.mpr rfl, rfl⟩
        · exact fun x hx => List.rel_of_pairwise_cons hpw hx

/-- C2: for every input list and window, the clusterer's groups partition
the input exactly (the concatenation of the group file lists is a
permutation of the input — nothing dropped, nothing duplicated) and each
group's file list is sorted ascending by creation time. -/
theorem clusterer_partitions_and_sorts (files : List MediaFile) (window : Int) :
    (((groupFilesByStartTime files window).map (fun g => g.files)).flatten).Perm
        files ∧
    ∀ g ∈ groupFilesByStartTime files window,
      g.files.Pairwise (fun a b => a.createdAt ≤ b.createdAt) := by
  constructor
  · cases hs : sortByCreatedAt files with
    | nil =>
      have h2 := sortByCreatedAt_perm files
      rw [hs] at h2
      have : files = [] := h2.symm.eq_nil
      subst this
      simp [groupFilesByStartTime, hs]
    | cons first rest =>
      have h := buildGroups_join_perm window rest first.createdAt [first]
      have h2 := sortByCreatedAt_perm files
      rw [hs] at h2
      have h3 : ((first :: rest : List MediaFile)).Perm files := h2
      simpa [groupFilesByStartTime, hs] using h.trans h3
  · intro g hg
    rw [groupFilesByStartTime] at hg
    cases hs : sortByCreatedAt files with
    | nil => rw [hs] at hg; simp at hg
    | cons first rest =>
      rw [hs] at hg
      exact buildGroups_files_sorted window rest first.createdAt [first] g hg

/-- C5 (amended): for every MediaGroup as produced by the clusterer, the
group's `start_time` equals the minimum `created_at` among its files.
(The alignment step does not re-derive `start_time`, so the invariant can
break once alignment appends files — see the counterexample.) -/
theorem clusterer_start_time_is_min (files : List MediaFile) (window : Int) :
    ∀ g ∈ groupFilesByStartTime files window, startTimeIsMin g := by
  intro g hg
  rw [groupFilesByStartTime] at hg
  cases hs : sortByCreatedAt files with
  | nil => rw [hs] at hg; simp at hg
  | cons first rest =>
    rw [hs] at hg
    have hsorted := sortByCreatedAt_sorted files
    rw [hs] at hsorted
    refine buildGroups_min window rest first.createdAt [first] ?_ ?_ ?_
      hsorted.of_cons g hg
    · intro x hx
      rcases List.mem_singleton.mp hx with rfl
      exact le_refl _
    · exact ⟨first, List.mem_singleton.mpr rfl, rfl⟩
    · exact fun x hx => List.rel_of_pairwise_cons hsorted hx

/-- C5 witness: the invariant evaluated on a concrete clusterer output. -/
theorem clusterer_start_time_is_min_witness :
    startTimeIsMin ((groupFilesByStartTime [mzF1, mzF2] 300).getD 0 default) :=
  clusterer_start_time_is_min [mzF1, mzF2] 300 _ (by decide)

/-- C5 counterexample: after alignment appends a past-clock-skewed
secondary file (its source had no same-day files, so the spillover filter
is skipped), the group's `start_time` (1000) is no longer the minimum
`created_at` among its files (the appended file has 500). -/
theorem alignment_start_time_not_min :
    ceAligned = [⟨1000, [ceSec, cePrim]⟩] ∧
      ¬ startTimeIsMin ⟨1000, [ceSec, cePrim]⟩ := by decide

/-- C10 (amended): clustering is invariant under permutation of the input
list provided creation times are pairwise distinct (Python's stable sort
keys only on `created_at`, so ties keep input order — see the
counterexample). -/
theorem clusterer_input_order_invariant (l1 l2 : List MediaFile) (window : Int)
    (hperm : l1.Perm l2)
    (hdistinct : l1.Pairwise (fun a b => a.createdAt ≠ b.createdAt)) :
    groupFilesByStartTime l1 window = groupFilesByStartTime l2 window := by
  haveI : IsAntisymm MediaFile (fun a b => a.createdAt < b.createdAt) :=
    ⟨fun a b h h2 => absurd (lt_trans h h2) (lt_irrefl _)⟩
  have hsymm : ∀ {x y : MediaFile},
      x.createdAt ≠ y.createdAt → y.createdAt ≠ x.createdAt :=
    fun h => Ne.symm h
  have hd1 : (sortByCreatedAt l1).Pairwise
      (fun a b => a.createdAt ≠ b.createdAt) :=
    ((sortByCreatedAt_perm l1).pairwise_iff hsymm).mpr hdistinct
  have hd2 : (sortByCreatedAt l2).Pairwise
      (fun a b => a.createdAt ≠ b.createdAt) :=
    ((sortByCreatedAt_perm l2).pairwise_iff hsymm).mpr
      ((hperm.pairwise_iff hsymm).mp hdistinct)
  have hs1 : (sortByCreatedAt l1).Pairwise
      (fun a b => a.createdAt < b.createdAt) :=
    ((sortByCreatedAt_sorted l1).and hd1).imp
      (fun h => lt_of_le_of_ne h.1 h.2)
  have hs2 : (sortByCreatedAt l2).Pairwise
      (fun a b => a.createdAt < b.createdAt) :=
    ((sortByCreatedAt_sorted l2).and hd2).imp
      (fun h => lt_of_le_of_ne h.1 h.2)
  have hp : (sortByCreatedAt l1).Perm (sortByCreatedAt l2) :=
    ((sortByCreatedAt_perm l1).trans hperm).trans (sortByCreatedAt_perm l2).symm
  have hsort : sortByCreatedAt l1 = sortByCreatedAt l2 :=
    List.eq_of_perm_of_sorted hp hs1 hs2
  simp only [groupFilesByStartTime, hsort]

/-- C10 witness: permutation invariance on a concrete list with distinct
creation times. -/
theorem clusterer_input_order_invariant_witness :
    groupFilesByStartTime [mzF1, mzF2] 300 =
      groupFilesByStartTime [mzF2, mzF1] 300 :=
  clusterer_input_order_invariant [mzF1, mzF2] [mzF2, mzF1] 300
    (by decide) (by decide)

/-- C10 counterexample: two files sharing one creation time; swapping the
input order swaps the file order inside the produced group, so the claim
as stated (identical per-group file sequences for every permutation)
fails. -/
theorem clusterer_input_order_counterexample :
    ([cxF1, cxF2] : List MediaFile).Perm [cxF2, cxF1] ∧
      groupFilesByStartTime [cxF1, cxF2] 300 ≠
        groupFilesByStartTime [cxF2, cxF1] 300 := by decide

/-! ### Theorems: the DP grids -/

theorem pairwise_getD {α : Type} {R : α → α → Prop} {l : List α}
    (h : l.Pairwise R) (d : α) {i j : ℕ} (hij : i < j) (hj : j < l.length) :
    R (l.getD i d) (l.getD j d) := by
  have hi : i < l.length := lt_trans hij hj
  rw [List.getD_eq_getElem l d hi, List.getD_eq_getElem l d hj]
  exact List.pairwise_iff_get.mp h ⟨i, hi⟩ ⟨j, hj⟩ hij

theorem prevWF_initTables (M : List (MediaFile × ℚ)) (A : List ℕ)
    (T : List Int) (G : List (Option ℚ)) : PrevWF M A T G initTables := by
  intro ci ap step hstep
  simp [initTables] at hstep

theorem prevWF_pushState {M : List (MediaFile × ℚ)} {A : List ℕ}
    {T : List Int} {G : List (Option ℚ)} {t : DpTables}
    (h : PrevWF M A T G t) {i j : ℕ} (s : DpState)
    {step : StepAction × ℕ × ℕ} (hstep : stepOK M A T G i j step) :
    PrevWF M A T G (pushState t i j s step) := by
  intro ci ap st hst
  unfold pushState at hst
  by_cases hb : isBetterState s (t.dp i j)
  · rw [if_pos hb] at hst
    simp only at hst
    by_cases hc : ci = i ∧ ap = j
    · rw [if_pos hc] at hst
      obtain ⟨rfl, rfl⟩ := hc
      cases hst
      exact hstep
    · rw [if_neg hc] at hst
      exact h ci ap st hst
  · rw [if_neg hb] at hst
    exact h ci ap st hst

theorem prevWF_processCell {M : List (MediaFile × ℚ)} {A : List ℕ}
    {T : List Int} {G : List (Option ℚ)} {t : DpTables}
    (h : PrevWF M A T G t) (cell : ℕ × ℕ) :
    PrevWF M A T G (processCell M A T G t cell) := by
  obtain ⟨ci, ap⟩ := cell
  simp only [processCell]
  cases hdp : t.dp ci ap with
  | none => exact h
  | some state =>
    dsimp only
    have h1 : PrevWF M A T G
        (if ci < M.length then
          pushState t (ci + 1) ap state (.skipCandidate, ci, ap)
        else t) := by
      by_cases hci : ci < M.length
      · rw [if_pos hci]
        exact prevWF_pushState h state ⟨rfl, rfl, hci⟩
      · rw [if_neg hci]; exact h
    have h2 : PrevWF M A T G
        (if ap < A.length then
          pushState
            (if ci < M.length then
              pushState t (ci + 1) ap state (.skipCandidate, ci, ap)
            else t) ci (ap + 1) state (.skipAnchor, ci, ap)
        else
          (if ci < M.length then
            pushState t (ci + 1) ap state (.skipCandidate, ci, ap)
          else t)) := by
      by_cases hap : ap < A.length
      · rw [if_pos hap]
        exact prevWF_pushState h1 state ⟨rfl, rfl, hap⟩
      · rw [if_neg hap]; exact h1
    by_cases hm : ci < M.length ∧ ap < A.length
    · rw [if_pos hm]
      cases hscore : scoreCandidateToAnchor (M.getD ci default).1
          (M.getD ci default).2 (A.getD ap 0) T G with
      | none => exact h2
      | some score =>
        refine prevWF_pushState h2 _ ?_
        exact ⟨rfl, rfl, hm.1, hm.2, by rw [hscore]; simp⟩
    · rw [if_neg hm]
      exact h2

theorem prevWF_runDp (M : List (MediaFile × ℚ)) (A : List ℕ)
    (T : List Int) (G : List (Option ℚ)) : PrevWF M A T G (runDp M A T G) := by
  unfold runDp
  have hgen : ∀ (cells : List (ℕ × ℕ)) (t : DpTables), PrevWF M A T G t →
      PrevWF M A T G (cells.foldl (processCell M A T G) t) := by
    intro cells
    induction cells with
    | nil => intro t ht; exact ht
    | cons c cs ih =>
      intro t ht
      exact ih _ (prevWF_processCell ht c)
  exact hgen _ _ (prevWF_initTables M A T G)

theorem backtrackAux_mem {M : List (MediaFile × ℚ)} {A : List ℕ}
    {T : List Int} {G : List (Option ℚ)} {t : DpTables}
    (hWF : PrevWF M A T G t) :
    ∀ (fuel ci ap : ℕ) (x : ℕ × MediaFile),
      x ∈ backtrackAux t M A fuel ci ap →
      ∃ c a, c < ci ∧ a < ap ∧ c < M.length ∧ a < A.length ∧
        x = (A.getD a 0, (M.getD c default).1) ∧
        scoreCandidateToAnchor (M.getD c default).1 (M.getD c default).2
          (A.getD a 0) T G ≠ none
  | 0, ci, ap => by
    intro x hx
    simp [backtrackAux] at hx
  | fuel + 1, ci, ap => by
    intro x hx
    rw [backtrackAux] at hx
    by_cases h0 : ci = 0 ∧ ap = 0
    · rw [if_pos h0] at hx
      simp at hx
    · rw [if_neg h0] at hx
      cases hprev : t.prev ci ap with
      | none => rw [hprev] at hx; simp at hx
      | some step =>
        rw [hprev] at hx
        obtain ⟨act, pi, pj⟩ := step
        have hok := hWF ci ap (act, pi, pj) hprev
        cases act with
        | skipCandidate =>
          simp only [stepOK] at hok
          obtain ⟨hpi, hpj, hlt⟩ := hok
          simp only [show (StepAction.skipCandidate = StepAction.matchStep) ↔
            False by simp, if_false, List.nil_append] at hx
          obtain ⟨c, a, hc, ha, hcn, han, hxe, hsc⟩ :=
            backtrackAux_mem hWF fuel pi pj x hx
          exact ⟨c, a, by omega, by omega, hcn, han, hxe, hsc⟩
        | skipAnchor =>
          simp only [stepOK] at hok
          obtain ⟨hpi, hpj, hlt⟩ := hok
          simp only [show (StepAction.skipAnchor = StepAction.matchStep) ↔
            False by simp, if_false, List.nil_append] at hx
          obtain ⟨c, a, hc, ha, hcn, han, hxe, hsc⟩ :=
            backtrackAux_mem hWF fuel pi pj x hx
          exact ⟨c, a, by omega, by omega, hcn, han, hxe, hsc⟩
        | matchStep =>
          simp only [stepOK] at hok
          obtain ⟨hpi, hpj, hcn, han, hsc⟩ := hok
          simp only [show (StepAction.matchStep = StepAction.matchStep) ↔ True
            by simp, if_true, List.singleton_append, List.mem_cons] at hx
          rcases hx with hx | hx
          · exact ⟨pi, pj, by omega, by omega, hcn, han, hx, hsc⟩
          · obtain ⟨c, a, hc, ha, hcn', han', hxe, hsc'⟩ :=
              backtrackAux_mem hWF fuel pi pj x hx
            exact ⟨c, a, by omega, by omega, hcn', han', hxe, hsc'⟩

theorem backtrackAux_pairwise {M : List (MediaFile × ℚ)} {A : List ℕ}
    {T : List Int} {G : List (Option ℚ)} {t : DpTables}
    (hWF : PrevWF M A T G t) (hA : A.Pairwise (· < ·))
    (hM : M.Pairwise (fun p q => p.1.createdAt ≤ q.1.createdAt)) :
    ∀ (fuel ci ap : ℕ),
      (backtrackAux t M A fuel ci ap).Pairwise
        (fun x y => y.1 < x.1 ∧ y.2.createdAt ≤ x.2.createdAt)
  | 0, ci, ap => by simp [backtrackAux]
  | fuel + 1, ci, ap => by
    rw [backtrackAux]
    by_cases h0 : ci = 0 ∧ ap = 0
    · rw [if_pos h0]; exact List.Pairwise.nil
    · rw [if_neg h0]
      cases hprev : t.prev ci ap with
      | none => exact List.Pairwise.nil
      | some step =>
        obtain ⟨act, pi, pj⟩ := step
        have hok := hWF ci ap (act, pi, pj) hprev
        cases act with
        | skipCandidate =>
          simp only [show (StepAction.skipCandidate = StepAction.matchStep) ↔
            False by simp, if_false, List.nil_append]
          exact backtrackAux_pairwise hWF hA hM fuel pi pj
        | skipAnchor =>
          simp only [show (StepAction.skipAnchor = StepAction.matchStep) ↔
            False by simp, if_false, List.nil_append]
          exact backtrackAux_pairwise hWF hA hM fuel pi pj
        | matchStep =>
          simp only [stepOK] at hok
          obtain ⟨hpi, hpj, hcn, han, _⟩ := hok
          simp only [show (StepAction.matchStep = StepAction.matchStep) ↔ True
            by simp, if_true, List.singleton_append]
          refine List.pairwise_cons.mpr ⟨?_, backtrackAux_pairwise hWF hA hM fuel pi pj⟩
          intro y hy
          obtain ⟨c, a, hc, ha, hcn', han', hxe, _⟩ :=
            backtrackAux_mem hWF fuel pi pj y hy
          subst hxe
          constructor
          · exact pairwise_getD hA 0 ha han
          · exact pairwise_getD hM default hc hcn

theorem matchable_sorted (durFn : FsPath → Option ℚ)
    (candidates : List MediaFile) :
    ((sortByCreatedAt candidates).filterMap
      (fun f => (durFn f.path).map (fun d => (f, d)))).Pairwise
      (fun p q => p.1.createdAt ≤ q.1.createdAt) := by
  refine List.Pairwise.filterMap _ ?_ (sortByCreatedAt_sorted candidates)
  intro a a' hle b hb b' hb'
  rw [Option.mem_def, Option.map_eq_some'] at hb hb'
  obtain ⟨d, _, hb⟩ := hb
  obtain ⟨d', _, hb'⟩ := hb'
  subst hb
  subst hb'
  exact hle

theorem matchable_durFn (durFn : FsPath → Option ℚ)
    (candidates : List MediaFile) :
    ∀ p ∈ (sortByCreatedAt candidates).filterMap
      (fun f => (durFn f.path).map (fun d => (f, d))),
      durFn p.1.path = some p.2 := by
  intro p hp
  rw [List.mem_filterMap] at hp
  obtain ⟨a, _, ha⟩ := hp
  rw [Option.map_eq_some'] at ha
  obtain ⟨d, hd, hp'⟩ := ha
  subst hp'
  exact hd

/-- C1: matches of `_select_monotonic_matches` are order-preserving — for
any candidate pool and admissible anchor-index sequence (the aligner always
passes a strictly increasing one), if file `fA` is matched to group index
`i` and file `fB` with a strictly later creation time to group index `j`,
then `i ≤ j`. -/
theorem select_monotonic_matches_order_preserving
    (durFn : FsPath → Option ℚ) (candidates : List MediaFile)
    (allowed : List ℕ) (times : List Int) (targets : List (Option ℚ))
    (i j : ℕ) (fA fB : MediaFile)
    (hallowed : allowed.Pairwise (· < ·))
    (hmemA : (i, fA) ∈
      selectMonotonicMatches durFn candidates allowed times targets)
    (hmemB : (j, fB) ∈
      selectMonotonicMatches durFn candidates allowed times targets)
    (hord : fA.createdAt < fB.createdAt) : i ≤ j := by
  simp only [selectMonotonicMatches] at hmemA hmemB
  by_cases h1 : candidates.isEmpty = true ∨ allowed.isEmpty = true
  · rw [if_pos h1] at hmemA
    simp at hmemA
  · rw [if_neg h1] at hmemA hmemB
    set MM := (sortByCreatedAt candidates).filterMap
      (fun f => (durFn f.path).map (fun d => (f, d))) with hMM
    by_cases h2 : MM.length = 0 ∨ allowed.length = 0
    · rw [if_pos h2] at hmemA
      simp at hmemA
    · rw [if_neg h2] at hmemA hmemB
      have hpw := backtrackAux_pairwise
        (prevWF_runDp MM allowed times targets) hallowed
        (matchable_sorted durFn candidates)
        (MM.length + allowed.length) MM.length allowed.length
      have hasc : ((backtrackAux (runDp MM allowed times targets) MM allowed
          (MM.length + allowed.length) MM.length allowed.length).reverse).Pairwise
          (fun x y => x.1 < y.1 ∧ x.2.createdAt ≤ y.2.createdAt) :=
        List.pairwise_reverse.mpr hpw
      rcases List.mem_iff_get.mp hmemA with ⟨p, hp⟩
      rcases List.mem_iff_get.mp hmemB with ⟨q, hq⟩
      by_cases hval : ((i, fA) : ℕ × MediaFile) = (j, fB)
      · exact le_of_eq (congrArg Prod.fst hval)
      · rcases lt_trichotomy p q with hpq | hpq | hpq
        · have hrel := List.pairwise_iff_get.mp hasc p q hpq
          rw [hp, hq] at hrel
          exact le_of_lt hrel.1
        · rw [hpq] at hp
          exact absurd (hp.symm.trans hq) hval
        · have hrel := List.pairwise_iff_get.mp hasc q p hpq
          rw [hp, hq] at hrel
          exact absurd hord (not_lt.mpr hrel.2)

/-- C1 witness: the order-preservation theorem applied to the worked
example's concrete pool and anchors. -/
theorem select_monotonic_matches_order_preserving_witness :
    ([0, 1, 2, 3] : List ℕ).Pairwise (· < ·) ∧ (1 : ℕ) ≤ 2 :=
  ⟨by decide,
    select_monotonic_matches_order_preserving exDur
      [exCand1, exCand2, exCand3] [0, 1, 2, 3] exTimes exTargets
      1 2 exCand1 exCand2 (by decide) (by decide) (by decide) (by decide)⟩

/-- C3: every `(group, file)` pair returned by `_select_monotonic_matches`
satisfies the duration tolerance — the file's probed duration differs from
the group's target duration by at most `max(5, 0.25 × target)`. -/
theorem select_monotonic_matches_duration_tolerance
    (durFn : FsPath → Option ℚ) (candidates : List MediaFile)
    (allowed : List ℕ) (times : List Int) (targets : List (Option ℚ))
    (g : ℕ) (f : MediaFile)
    (hmem : (g, f) ∈
      selectMonotonicMatches durFn candidates allowed times targets) :
    ∃ d tg, durFn f.path = some d ∧ targets.getD g none = some tg ∧
      |d - tg| ≤ max 5 (tg * (1 / 4)) := by
  simp only [selectMonotonicMatches] at hmem
  by_cases h1 : candidates.isEmpty = true ∨ allowed.isEmpty = true
  · rw [if_pos h1] at hmem
    simp at hmem
  · rw [if_neg h1] at hmem
    set MM := (sortByCreatedAt candidates).filterMap
      (fun f => (durFn f.path).map (fun d => (f, d))) with hMM
    by_cases h2 : MM.length = 0 ∨ allowed.length = 0
    · rw [if_pos h2] at hmem
      simp at hmem
    · rw [if_neg h2] at hmem
      rw [List.mem_reverse] at hmem
      obtain ⟨c, a, _, _, hcn, han, hxe, hsc⟩ :=
        backtrackAux_mem (prevWF_runDp MM allowed times targets)
          (MM.length + allowed.length) MM.length allowed.length _ hmem
      have hg : g = allowed.getD a 0 := congrArg Prod.fst hxe
      have hf : f = (MM.getD c default).1 := congrArg Prod.snd hxe
      have hmm : MM.getD c default ∈ MM := by
        rw [List.getD_eq_getElem _ _ hcn]
        exact List.getElem_mem hcn
      have hdur := matchable_durFn durFn candidates _ hmm
      unfold scoreCandidateToAnchor at hsc
      cases ht : targets.getD (allowed.getD a 0) none with
      | none => rw [ht] at hsc; simp at hsc
      | some tg =>
        rw [ht] at hsc
        dsimp only at hsc
        by_cases hgt : |(MM.getD c default).2 - tg| > max 5 (tg * (1 / 4))
        · rw [if_pos hgt] at hsc
          simp at hsc
        · refine ⟨(MM.getD c default).2, tg, ?_, ?_, le_of_not_lt hgt⟩
          · rw [hf]
            exact hdur
          · rw [hg]
            exact ht

/-- C3 witness: the tolerance theorem applied to a concrete match of the
worked example. -/
theorem select_monotonic_matches_duration_tolerance_witness :
    ∃ d tg, exDur exCand1.path = some d ∧ exTargets.getD 1 none = some tg ∧
      |d - tg| ≤ max 5 (tg * (1 / 4)) :=
  select_monotonic_matches_duration_tolerance exDur
    [exCand1, exCand2, exCand3] [0, 1, 2, 3] exTimes exTargets 1 exCand1
    (by decide)

/-- C4: the spec's worked example — targets
`[588.8, 8338.6, 5116.9, 1447.3]`, clock-skewed candidates with durations
`[8888.88, 5147.14, 1473.47]` — matches the candidates to the second,
third and fourth group respectively, and matches nothing to the 588.8 s
group (index 0). -/
theorem worked_example_alignment :
    exMatches = [(1, exCand1), (2, exCand2), (3, exCand3)] ∧
      ∀ x ∈ exMatches, x.1 ≠ 0 := by decide

/-! ### Theorems: the candidate pool -/

theorem any_key_iff (m : List (FsPath × MediaFile)) (k : FsPath) :
    m.any (fun kv => decide (kv.1 = k)) = true ↔ k ∈ m.map Prod.fst := by
  simp [List.any_eq_true]

theorem keys_insertReplace_present (m : List (FsPath × MediaFile))
    (k : FsPath) (v : MediaFile) (h : k ∈ m.map Prod.fst) :
    (insertReplace m k v).map Prod.fst = m.map Prod.fst := by
  unfold insertReplace
  rw [if_pos ((any_key_iff m k).mpr h), List.map_map]
  refine List.map_congr_left ?_
  intro kv _
  by_cases hkv : kv.1 = k
  · simp [Function.comp, hkv]
  · simp [Function.comp, hkv]

theorem keys_insertReplace_absent (m : List (FsPath × MediaFile))
    (k : FsPath) (v : MediaFile) (h : k ∉ m.map Prod.fst) :
    (insertReplace m k v).map Prod.fst = m.map Prod.fst ++ [k] := by
  unfold insertReplace
  rw [if_neg (fun hc => h ((any_key_iff m k).mp hc)), List.map_append]
  simp

theorem mem_keys_insertReplace (m : List (FsPath × MediaFile))
    (k p : FsPath) (v : MediaFile) :
    p ∈ (insertReplace m k v).map Prod.fst ↔ p ∈ m.map Prod.fst ∨ p = k := by
  by_cases h : k ∈ m.map Prod.fst
  · rw [keys_insertReplace_present m k v h]
    exact ⟨Or.inl, fun hp => hp.elim id (fun hpk => hpk ▸ h)⟩
  · rw [keys_insertReplace_absent m k v h]
    simp

theorem nodup_keys_insertReplace (m : List (FsPath × MediaFile))
    (k : FsPath) (v : MediaFile) (h : (m.map Prod.fst).Nodup) :
    ((insertReplace m k v).map Prod.fst).Nodup := by
  by_cases hk : k ∈ m.map Prod.fst
  · rw [keys_insertReplace_present m k v hk]
    exact h
  · rw [keys_insertReplace_absent m k v hk]
    rw [List.nodup_append]
    exact ⟨h, List.nodup_singleton k,
      fun a ha hak => hk ((List.mem_singleton.mp hak) ▸ ha)⟩

theorem valPath_insertReplace (m : List (FsPath × MediaFile)) (k : FsPath)
    (v : MediaFile) (hm : ∀ kv ∈ m, kv.2.path = kv.1) (hv : v.path = k) :
    ∀ kv ∈ insertReplace m k v, kv.2.path = kv.1 := by
  unfold insertReplace
  by_cases h : m.any (fun kv => decide (kv.1 = k)) = true
  · rw [if_pos h]
    intro kv hkv
    rw [List.mem_map] at hkv
    obtain ⟨kv', hkv', rfl⟩ := hkv
    by_cases hk : kv'.1 = k
    · simp [hk, hv]
    · simp only [if_neg hk]
      exact hm kv' hkv'
  · rw [if_neg h]
    intro kv hkv
    rcases List.mem_append.mp hkv with h1 | h1
    · exact hm kv h1
    · rw [List.mem_singleton.mp h1]
      exact hv

theorem mem_keys_setdefaultPath (m : List (FsPath × MediaFile))
    (k p : FsPath) (v : MediaFile) :
    p ∈ (setdefaultPath m k v).map Prod.fst ↔
      p ∈ m.map Prod.fst ∨ p = k := by
  unfold setdefaultPath
  by_cases h : m.any (fun kv => decide (kv.1 = k)) = true
  · rw [if_pos h]
    exact ⟨Or.inl,
      fun hp => hp.elim id (fun hpk => hpk ▸ (any_key_iff m k).mp h)⟩
  · rw [if_neg h]
    simp

theorem nodup_keys_setdefaultPath (m : List (FsPath × MediaFile))
    (k : FsPath) (v : MediaFile) (h : (m.map Prod.fst).Nodup) :
    ((setdefaultPath m k v).map Prod.fst).Nodup := by
  unfold setdefaultPath
  by_cases hk : m.any (fun kv => decide (kv.1 = k)) = true
  · rw [if_pos hk]
    exact h
  · rw [if_neg hk]
    rw [List.map_append, List.nodup_append]
    refine ⟨h, List.nodup_singleton k, fun a ha hak => ?_⟩
    have : a = k := List.mem_singleton.mp hak
    exact (fun hc => hc ((any_key_iff m k).mpr (this ▸ ha))) hk

theorem valPath_setdefaultPath (m : List (FsPath × MediaFile)) (k : FsPath)
    (v : MediaFile) (hm : ∀ kv ∈ m, kv.2.path = kv.1) (hv : v.path = k) :
    ∀ kv ∈ setdefaultPath m k v, kv.2.path = kv.1 := by
  unfold setdefaultPath
  by_cases h : m.any (fun kv => decide (kv.1 = k)) = true
  · rw [if_pos h]
    exact hm
  · rw [if_neg h]
    intro kv hkv
    rcases List.mem_append.mp hkv with h1 | h1
    · exact hm kv h1
    · rw [List.mem_singleton.mp h1]
      exact hv

theorem dayFold_keys (files : List MediaFile) :
    ∀ (m : List (FsPath × MediaFile)) (p : FsPath),
      (p ∈ ((files.foldl (fun m f => insertReplace m f.path f) m).map
        Prod.fst)) ↔
        p ∈ m.map Prod.fst ∨ p ∈ files.map (fun f => f.path) := by
  induction files with
  | nil => intro m p; simp
  | cons f fs ih =>
    intro m p
    simp only [List.foldl_cons]
    rw [ih, mem_keys_insertReplace]
    simp [or_assoc]

theorem dayFold_nodup (files : List MediaFile) :
    ∀ (m : List (FsPath × MediaFile)), (m.map Prod.fst).Nodup →
      (((files.foldl (fun m f => insertReplace m f.path f) m).map
        Prod.fst)).Nodup := by
  induction files with
  | nil => intro m h; exact h
  | cons f fs ih =>
    intro m h
    simp only [List.foldl_cons]
    exact ih _ (nodup_keys_insertReplace m f.path f h)

theorem dayFold_val (files : List MediaFile) :
    ∀ (m : List (FsPath × MediaFile)), (∀ kv ∈ m, kv.2.path = kv.1) →
      ∀ kv ∈ files.foldl (fun m f => insertReplace m f.path f) m,
        kv.2.path = kv.1 := by
  induction files with
  | nil => intro m h; exact h
  | cons f fs ih =>
    intro m h
    simp only [List.foldl_cons]
    exact ih _ (valPath_insertReplace m f.path f h rfl)

theorem scanFold_keys (cf : FsPath → Option Int) (mf : FsPath → Bool)
    (sn : String) (hdf : Bool) (ss se : Int) (paths : List FsPath) :
    ∀ (m : List (FsPath × MediaFile)) (p : FsPath),
      (p ∈ ((paths.foldl (scanStep cf mf sn hdf ss se) m).map Prod.fst)) ↔
        p ∈ m.map Prod.fst ∨
          (p ∈ paths ∧ mf p = true ∧
            ∃ ts, cf p = some ts ∧ (hdf = true → ss ≤ ts ∧ ts < se)) := by
  induction paths with
  | nil => intro m p; simp
  | cons q rest ih =>
    intro m p
    simp only [List.foldl_cons]
    rw [ih]
    unfold scanStep
    by_cases h1 : mf q = false
    · rw [if_pos h1]
      constructor
      · rintro (hp | hp)
        · exact Or.inl hp
        · exact Or.inr ⟨List.mem_cons_of_mem _ hp.1, hp.2⟩
      · rintro (hp | ⟨hin, hmf, hts⟩)
        · exact Or.inl hp
        · rcases List.mem_cons.mp hin with rfl | hin
          · rw [h1] at hmf; cases hmf
          · exact Or.inr ⟨hin, hmf, hts⟩
    · rw [if_neg h1]
      have hmfq : mf q = true := by
        cases hmf : mf q
        · exact absurd hmf h1
        · rfl
      cases h2 : cf q with
      | none =>
        dsimp only
        constructor
        · rintro (hp | hp)
          · exact Or.inl hp
          · exact Or.inr ⟨List.mem_cons_of_mem _ hp.1, hp.2⟩
        · rintro (hp | ⟨hin, hmf', ts, hts, hwin⟩)
          · exact Or.inl hp
          · rcases List.mem_cons.mp hin with rfl | hin
            · rw [h2] at hts; cases hts
            · exact Or.inr ⟨hin, hmf', ts, hts, hwin⟩
      | some ts0 =>
        dsimp only
        by_cases h3 : hdf = true ∧ (ts0 < ss ∨ ts0 ≥ se)
        · rw [if_pos h3]
          constructor
          · rintro (hp | hp)
            · exact Or.inl hp
            · exact Or.inr ⟨List.mem_cons_of_mem _ hp.1, hp.2⟩
          · rintro (hp | ⟨hin, hmf', ts, hts, hwin⟩)
            · exact Or.inl hp
            · rcases List.mem_cons.mp hin with rfl | hin
              · rw [h2] at hts
                injection hts with hts
                subst hts
                have hw := hwin h3.1
                rcases h3.2 with hout | hout
                · omega
                · omega
              · exact Or.inr ⟨hin, hmf', ts, hts, hwin⟩
        · rw [if_neg h3]
          rw [mem_keys_setdefaultPath]
          constructor
          · rintro ((hp | rfl) | hp)
            · exact Or.inl hp
            · refine Or.inr ⟨List.mem_cons_self _ _, hmfq, ts0, h2, ?_⟩
              intro hdft
              have h4 : ¬(ts0 < ss ∨ ts0 ≥ se) := fun hout => h3 ⟨hdft, hout⟩
              omega
            · exact Or.inr ⟨List.mem_cons_of_mem _ hp.1, hp.2⟩
          · rintro (hp | ⟨hin, hmf', ts, hts, hwin⟩)
            · exact Or.inl (Or.inl hp)
            · rcases List.mem_cons.mp hin with rfl | hin
              · exact Or.inl (Or.inr rfl)
              · exact Or.inr ⟨hin, hmf', ts, hts, hwin⟩

theorem scanFold_nodup (cf : FsPath → Option Int) (mf : FsPath → Bool)
    (sn : String) (hdf : Bool) (ss se : Int) (paths : List FsPath) :
    ∀ (m : List (FsPath × MediaFile)), (m.map Prod.fst).Nodup →
      (((paths.foldl (scanStep cf mf sn hdf ss se) m).map Prod.fst)).Nodup := by
  induction paths with
  | nil => intro m h; exact h
  | cons q rest ih =>
    intro m h
    simp only [List.foldl_cons]
    refine ih _ ?_
    unfold scanStep
    by_cases h1 : mf q = false
    · rw [if_pos h1]; exact h
    · rw [if_neg h1]
      cases h2 : cf q with
      | none => exact h
      | some ts0 =>
        dsimp only
        by_cases h3 : hdf = true ∧ (ts0 < ss ∨ ts0 ≥ se)
        · rw [if_pos h3]; exact h
        · rw [if_neg h3]
          exact nodup_keys_setdefaultPath m q _ h

theorem scanFold_val (cf : FsPath → Option Int) (mf : FsPath → Bool)
    (sn : String) (hdf : Bool) (ss se : Int) (paths : List FsPath) :
    ∀ (m : List (FsPath × MediaFile)), (∀ kv ∈ m, kv.2.path = kv.1) →
      ∀ kv ∈ paths.foldl (scanStep cf mf sn hdf ss se) m,
        kv.2.path = kv.1 := by
  induction paths with
  | nil => intro m h; exact h
  | cons q rest ih =>
    intro m h
    simp only [List.foldl_cons]
    refine ih _ ?_
    unfold scanStep
    by_cases h1 : mf q = false
    · rw [if_pos h1]; exact h
    · rw [if_neg h1]
      cases h2 : cf q with
      | none => exact h
      | some ts0 =>
        dsimp only
        by_cases h3 : hdf = true ∧ (ts0 < ss ∨ ts0 ≥ se)
        · rw [if_pos h3]; exact h
        · rw [if_neg h3]
          exact valPath_setdefaultPath m q _ h rfl

/-- C6: per-source candidate-pool construction — the pool's paths are
exactly the same-day file paths plus the re-scanned media paths with a
readable creation time lying inside `[day_start − 6h, day_end + 6h)` (the
window test being skipped when the source has no same-day files), with no
path appearing twice. -/
theorem candidate_pool_characterization (scanFn : FsPath → List FsPath)
    (createdFn : FsPath → Option Int) (isMediaFn : FsPath → Bool)
    (source : SourceOption) (sourceDayFiles : List MediaFile)
    (dayStart dayEnd : Int) :
    ((candidatePool scanFn createdFn isMediaFn source sourceDayFiles dayStart
        dayEnd).map (fun f => f.path)).Nodup ∧
    ∀ p : FsPath,
      p ∈ (candidatePool scanFn createdFn isMediaFn source sourceDayFiles
          dayStart dayEnd).map (fun f => f.path) ↔
        p ∈ sourceDayFiles.map (fun f => f.path) ∨
          (p ∈ scanFn source.path ∧ isMediaFn p = true ∧
            ∃ ts, createdFn p = some ts ∧
              (sourceDayFiles ≠ [] →
                dayStart - SPILLOVER_WINDOW ≤ ts ∧
                  ts < dayEnd + SPILLOVER_WINDOW)) := by
  unfold candidatePool
  rw [List.map_map]
  have hval : ∀ kv ∈ (scanFn source.path).foldl
      (scanStep createdFn isMediaFn source.name (!sourceDayFiles.isEmpty)
        (dayStart - SPILLOVER_WINDOW) (dayEnd + SPILLOVER_WINDOW))
      (sourceDayFiles.foldl (fun m f => insertReplace m f.path f) []),
      kv.2.path = kv.1 :=
    scanFold_val _ _ _ _ _ _ _ _
      (dayFold_val sourceDayFiles [] (by simp))
  have hmaps : List.map ((fun f => f.path) ∘ (fun kv : FsPath × MediaFile => kv.2))
      ((scanFn source.path).foldl
        (scanStep createdFn isMediaFn source.name (!sourceDayFiles.isEmpty)
          (dayStart - SPILLOVER_WINDOW) (dayEnd + SPILLOVER_WINDOW))
        (sourceDayFiles.foldl (fun m f => insertReplace m f.path f) [])) =
      List.map Prod.fst
      ((scanFn source.path).foldl
        (scanStep createdFn isMediaFn source.name (!sourceDayFiles.isEmpty)
          (dayStart - SPILLOVER_WINDOW) (dayEnd + SPILLOVER_WINDOW))
        (sourceDayFiles.foldl (fun m f => insertReplace m f.path f) [])) :=
    List.map_congr_left (fun kv hkv => hval kv hkv)
  rw [hmaps]
  have hbool : ((!sourceDayFiles.isEmpty) = true) ↔ sourceDayFiles ≠ [] := by
    simp [List.isEmpty_iff]
  constructor
  · exact scanFold_nodup _ _ _ _ _ _ _ _
      (dayFold_nodup sourceDayFiles [] (by simp))
  · intro p
    rw [scanFold_keys, dayFold_keys]
    simp only [hbool, List.map_nil, List.not_mem_nil, false_or]

/-! ### Theorems: primary-source selection and group scaffolding -/

theorem mem_keys_appendDayFile (m : List (String × List MediaFile))
    (f : MediaFile) (s : String) :
    s ∈ (appendDayFile m f).map Prod.fst ↔
      s ∈ m.map Prod.fst ∨ s = f.source := by
  unfold appendDayFile
  by_cases h : m.any (fun kv => decide (kv.1 = f.source)) = true
  · rw [if_pos h]
    have hk : f.source ∈ m.map Prod.fst := by
      rw [List.any_eq_true] at h
      obtain ⟨kv, hkv, hkvs⟩ := h
      rw [decide_eq_true_eq] at hkvs
      exact List.mem_map.mpr ⟨kv, hkv, hkvs⟩
    have hmap : (m.map (fun kv =>
        if kv.1 = f.source then (kv.1, kv.2 ++ [f]) else kv)).map Prod.fst =
        m.map Prod.fst := by
      rw [List.map_map]
      refine List.map_congr_left ?_
      intro kv _
      by_cases hkv : kv.1 = f.source
      · simp [Function.comp, hkv]
      · simp [Function.comp, hkv]
    rw [hmap]
    exact ⟨Or.inl, fun hp => hp.elim id (fun hps => hps ▸ hk)⟩
  · rw [if_neg h]
    simp

theorem nodup_keys_appendDayFile (m : List (String × List MediaFile))
    (f : MediaFile) (h : (m.map Prod.fst).Nodup) :
    ((appendDayFile m f).map Prod.fst).Nodup := by
  unfold appendDayFile
  by_cases hp : m.any (fun kv => decide (kv.1 = f.source)) = true
  · rw [if_pos hp]
    have hmap : (m.map (fun kv =>
        if kv.1 = f.source then (kv.1, kv.2 ++ [f]) else kv)).map Prod.fst =
        m.map Prod.fst := by
      rw [List.map_map]
      refine List.map_congr_left ?_
      intro kv _
      by_cases hkv : kv.1 = f.source
      · simp [Function.comp, hkv]
      · simp [Function.comp, hkv]
    rw [hmap]
    exact h
  · rw [if_neg hp]
    rw [List.map_append, List.nodup_append]
    refine ⟨h, by simp, fun a ha hak => ?_⟩
    have ha' : a = f.source := by simpa using hak
    subst ha'
    rw [List.any_eq_true] at hp
    rw [List.mem_map] at ha
    obtain ⟨kv, hkv, hkvs⟩ := ha
    exact hp ⟨kv, hkv, by simp [hkvs]⟩

theorem dayFold_values (files : List MediaFile) :
    ∀ (m : List (String × List MediaFile)) (v : String → List MediaFile),
      (m.map Prod.fst).Nodup →
      (∀ kv ∈ m, kv.2 = v kv.1) →
      (∀ s, s ∉ m.map Prod.fst → v s = []) →
      ∀ kv ∈ files.foldl appendDayFile m,
        kv.2 = v kv.1 ++ files.filter (fun f => decide (f.source = kv.1)) := by
  induction files with
  | nil =>
    intro m v _ hent _ kv hkv
    simpa using hent kv hkv
  | cons f fs ih =>
    intro m v hnd hent habs kv hkv
    simp only [List.foldl_cons] at hkv
    have hstep := ih (appendDayFile m f)
      (fun s => if f.source = s then v s ++ [f] else v s)
      (nodup_keys_appendDayFile m f hnd) ?_ ?_ kv hkv
    · rw [hstep]
      by_cases hsrc : f.source = kv.1
      · simp [hsrc, List.filter_cons]
      · simp [hsrc, List.filter_cons, fun h => hsrc (of_decide_eq_true h)]
    · intro kv' hkv'
      unfold appendDayFile at hkv'
      by_cases hp : m.any (fun kv => decide (kv.1 = f.source)) = true
      · rw [if_pos hp] at hkv'
        rw [List.mem_map] at hkv'
        obtain ⟨kv0, hkv0, rfl⟩ := hkv'
        by_cases hk : kv0.1 = f.source
        · simp only [if_pos hk]
          rw [if_pos hk.symm]
          rw [hent kv0 hkv0, hk]
        · simp only [if_neg hk]
          rw [if_neg (fun hc => hk hc.symm)]
          exact hent kv0 hkv0
      · rw [if_neg hp] at hkv'
        rcases List.mem_append.mp hkv' with h1 | h1
        · have hk : kv'.1 ≠ f.source := by
            intro hc
            rw [List.any_eq_true] at hp
            exact hp ⟨kv', h1, by simp [hc]⟩
          dsimp only
          rw [if_neg (fun hc => hk hc.symm)]
          exact hent kv' h1
        · rw [List.mem_singleton.mp h1]
          dsimp only
          rw [if_pos rfl]
          have hfs : f.source ∉ List.map Prod.fst m := by
            intro hc
            rw [List.any_eq_true] at hp
            rw [List.mem_map] at hc
            obtain ⟨kv0, hkv0, hkvs⟩ := hc
            exact hp ⟨kv0, hkv0, by simp [hkvs]⟩
          rw [habs f.source hfs]
          simp
    · intro s hs
      rw [mem_keys_appendDayFile] at hs
      push_neg at hs
      dsimp only
      rw [if_neg (fun hc => hs.2 hc.symm)]
      exact habs s hs.1

theorem dayFold_mem_keys (files : List MediaFile) :
    ∀ (m : List (String × List MediaFile)) (s : String),
      s ∈ (files.foldl appendDayFile m).map Prod.fst ↔
        s ∈ m.map Prod.fst ∨ ∃ f ∈ files, f.source = s := by
  induction files with
  | nil => intro m s; simp
  | cons f fs ih =>
    intro m s
    simp only [List.foldl_cons]
    rw [ih, mem_keys_appendDayFile]
    constructor
    · rintro ((hp | rfl) | ⟨f', hf', rfl⟩)
      · exact Or.inl hp
      · exact Or.inr ⟨f, List.mem_cons_self f fs, rfl⟩
      · exact Or.inr ⟨f', List.mem_cons_of_mem f hf', rfl⟩
    · rintro (hp | ⟨f', hf', rfl⟩)
      · exact Or.inl (Or.inl hp)
      · rcases List.mem_cons.mp hf' with rfl | hf'
        · exact Or.inl (Or.inr rfl)
        · exact Or.inr ⟨f', hf', rfl⟩

theorem foldl_max_mem :
    ∀ (rest : List (String × List MediaFile)) (best : String × List MediaFile),
      rest.foldl (fun b x => if x.2.length > b.2.length then x else b) best ∈
        best :: rest := by
  intro rest
  induction rest with
  | nil => intro best; simp
  | cons x xs ih =>
    intro best
    simp only [List.foldl_cons]
    by_cases h : x.2.length > best.2.length
    · rw [if_pos h]
      rcases List.mem_cons.mp (ih x) with h1 | h1
      · rw [h1]; simp
      · exact List.mem_cons_of_mem _ (List.mem_cons_of_mem _ h1)
    · rw [if_neg h]
      rcases List.mem_cons.mp (ih best) with h1 | h1
      · rw [h1]; simp
      · exact List.mem_cons_of_mem _ (List.mem_cons_of_mem _ h1)

theorem foldl_max_ge :
    ∀ (rest : List (String × List MediaFile)) (best : String × List MediaFile),
      ∀ y ∈ best :: rest,
        y.2.length ≤
          (rest.foldl (fun b x => if x.2.length > b.2.length then x else b)
            best).2.length := by
  intro rest
  induction rest with
  | nil =>
    intro best y hy
    rcases List.mem_cons.mp hy with rfl | hy
    · exact le_refl _
    · simp at hy
  | cons x xs ih =>
    intro best y hy
    simp only [List.foldl_cons]
    have hbest : best.2.length ≤
        (if x.2.length > best.2.length then x else best).2.length := by
      by_cases h : x.2.length > best.2.length
      · rw [if_pos h]; exact le_of_lt h
      · rw [if_neg h]
    have hx : x.2.length ≤
        (if x.2.length > best.2.length then x else best).2.length := by
      by_cases h : x.2.length > best.2.length
      · rw [if_pos h]
      · rw [if_neg h]; exact le_of_not_lt h
    rcases List.mem_cons.mp hy with rfl | hy
    · exact le_trans hbest
        (ih _ _ (List.mem_cons_self _ _))
    · rcases List.mem_cons.mp hy with rfl | hy
      · exact le_trans hx (ih _ _ (List.mem_cons_self _ _))
      · exact ih _ y (List.mem_cons_of_mem _ hy)

/-- C7 (implicit): the aligner picks as primary the source with the most
day-matched files (not a fixed designated source), and its scaffold step
strips every non-primary file from the input groups and drops groups left
empty — every scaffold group is nonempty and purely primary-source. -/
theorem primary_selection_and_scaffold (groups : List MediaGroup)
    (files : List MediaFile) (p : String)
    (hp : primarySourceName files = some p) :
    (∀ s : String,
      (files.filter (fun f => decide (f.source = s))).length ≤
        (files.filter (fun f => decide (f.source = p))).length) ∧
    ∀ g ∈ scaffoldGroups groups p,
      g.files ≠ [] ∧ ∀ f ∈ g.files, f.source = p := by
  constructor
  · intro s
    unfold primarySourceName at hp
    cases hmax : maxBySize (dayFilesBySource files) with
    | none => rw [hmax] at hp; cases hp
    | some kv =>
      rw [hmax] at hp
      have hkvp : kv.1 = p := by
        simpa using hp
      have hkvmem : kv ∈ dayFilesBySource files := by
        unfold maxBySize at hmax
        cases hdict : dayFilesBySource files with
        | nil => rw [hdict] at hmax; cases hmax
        | cons kv0 rest =>
          rw [hdict] at hmax
          have := foldl_max_mem rest kv0
          injection hmax with hmax
          rw [hmax] at this
          exact this
      have hvalues := dayFold_values files [] (fun _ => [])
        (by simp) (by simp) (by simp)
      have hkvval := hvalues kv hkvmem
      simp only [List.nil_append] at hkvval
      by_cases hs : ∃ f ∈ files, f.source = s
      · have hsk : s ∈ (dayFilesBySource files).map Prod.fst := by
          show s ∈ (files.foldl appendDayFile []).map Prod.fst
          rw [dayFold_mem_keys files [] s]
          exact Or.inr hs
        rw [List.mem_map] at hsk
        obtain ⟨kv', hkv', hkv's⟩ := hsk
        have hkv'val := hvalues kv' hkv'
        simp only [List.nil_append] at hkv'val
        have hge : kv'.2.length ≤ kv.2.length := by
          unfold maxBySize at hmax
          cases hdict : dayFilesBySource files with
          | nil => rw [hdict] at hkv'; simp at hkv'
          | cons kv0 rest =>
            rw [hdict] at hmax
            injection hmax with hmax
            rw [← hmax]
            rw [hdict] at hkv'
            exact foldl_max_ge rest kv0 kv' hkv'
        rw [hkv'val, hkvval, hkv's, hkvp] at hge
        exact hge
      · have hempty : files.filter (fun f => decide (f.source = s)) = [] := by
          rw [List.filter_eq_nil_iff]
          intro f hf
          simp only [decide_eq_true_eq]
          exact fun hc => hs ⟨f, hf, hc⟩
        rw [hempty]
        exact Nat.zero_le _
  · intro g hg
    unfold scaffoldGroups at hg
    have hg' : g ∈ ((groups.map (fun g =>
        { g with files := g.files.filter (fun f => decide (f.source = p)) })).filter
        (fun g => !g.files.isEmpty)) :=
      (List.perm_insertionSort _ _).mem_iff.mp hg
    rw [List.mem_filter] at hg'
    obtain ⟨hmem, hne⟩ := hg'
    constructor
    · intro hc
      rw [hc] at hne
      simp at hne
    · rw [List.mem_map] at hmem
      obtain ⟨g0, _, rfl⟩ := hmem
      intro f hf
      simp only [List.mem_filter, decide_eq_true_eq] at hf
      exact hf.2

/-- C7 witness: the primary-selection maximality applied to a concrete
day-file list. -/
theorem primary_selection_and_scaffold_witness :
    (([cePrim] : List MediaFile).filter
      (fun f => decide (f.source = "B"))).length ≤
      (([cePrim] : List MediaFile).filter
        (fun f => decide (f.source = "A"))).length :=
  (primary_selection_and_scaffold mzGroups [cePrim] "A" (by decide)).1 "B"

/-! ### Theorems: destination planning -/

theorem findFreeName_spec (fs : Fs) (reserved : List FsPath)
    (candidate : FsPath) :
    ∀ (fuel counter : ℕ) (c : FsPath),
      findFreeName fs reserved candidate fuel counter = some c →
      pathExists fs c = false ∧ c ∉ reserved
  | 0, counter, c => by
    intro h
    simp [findFreeName] at h
  | fuel + 1, counter, c => by
    intro h
    rw [findFreeName] at h
    by_cases hcond : pathExists fs
        (withName candidate ((splitStemSuffix (pathName candidate)).1 ++ "_" ++
          toString counter ++ (splitStemSuffix (pathName candidate)).2)) =
          false ∧
        withName candidate ((splitStemSuffix (pathName candidate)).1 ++ "_" ++
          toString counter ++ (splitStemSuffix (pathName candidate)).2) ∉
          reserved
    · rw [if_pos hcond] at h
      cases h
      exact hcond
    · rw [if_neg hcond] at h
      exact findFreeName_spec fs reserved candidate fuel (counter + 1) c h

theorem planAux_nodup (fs : Fs) (episodeDir : FsPath) :
    ∀ (files : List MediaFile) (reserved planned : List FsPath),
      planned.Nodup → (∀ q ∈ planned, q ∈ reserved) →
      ∀ out, planAux fs episodeDir files reserved planned = some out →
        out.Nodup
  | [], reserved, planned => by
    intro hnd _ out hout
    rw [planAux] at hout
    cases hout
    exact hnd
  | mf :: rest, reserved, planned => by
    intro hnd hsub out hout
    rw [planAux] at hout
    by_cases hcol : pathExists fs (episodeDir ++ [pathName mf.path]) = true ∨
        episodeDir ++ [pathName mf.path] ∈ reserved
    · rw [if_pos hcol] at hout
      cases hfree : findFreeName fs reserved (episodeDir ++ [pathName mf.path])
          (fs.dirs.length + fs.files.length + reserved.length + 1) 1 with
      | none => rw [hfree] at hout; cases hout
      | some c =>
        rw [hfree] at hout
        have hc := (findFreeName_spec fs reserved _ _ _ c hfree).2
        refine planAux_nodup fs episodeDir rest (reserved ++ [c])
          (planned ++ [c]) ?_ ?_ out hout
        · rw [List.nodup_append]
          exact ⟨hnd, List.nodup_singleton c,
            fun a ha hac => hc ((List.mem_singleton.mp hac) ▸ hsub a ha)⟩
        · intro q hq
          rcases List.mem_append.mp hq with h1 | h1
          · exact List.mem_append.mpr (Or.inl (hsub q h1))
          · exact List.mem_append.mpr (Or.inr h1)
    · rw [if_neg hcol] at hout
      have hc : episodeDir ++ [pathName mf.path] ∉ reserved :=
        fun hmem => hcol (Or.inr hmem)
      refine planAux_nodup fs episodeDir rest
        (reserved ++ [episodeDir ++ [pathName mf.path]])
        (planned ++ [episodeDir ++ [pathName mf.path]]) ?_ ?_ out hout
      · rw [List.nodup_append]
        exact ⟨hnd, List.nodup_singleton _,
          fun a ha hac => hc ((List.mem_singleton.mp hac) ▸ hsub a ha)⟩
      · intro q hq
        rcases List.mem_append.mp hq with h1 | h1
        · exact List.mem_append.mpr (Or.inl (hsub q h1))
        · exact List.mem_append.mpr (Or.inr h1)

/-- C9: whenever `plan_group_destinations` completes, the planned
destination paths are pairwise distinct — name collisions (also between
two source files sharing a base name) are resolved through the
`name`, `name_1`, `name_2`, … suffixing against both existing and
already-reserved names. -/
theorem plan_group_destinations_nodup (files : List MediaFile)
    (episodeDir : FsPath) (fs : Fs) (planned : List FsPath)
    (h : planGroupDestinations files episodeDir fs = some planned) :
    planned.Nodup :=
  planAux_nodup fs episodeDir files [] [] (by simp) (by simp) planned h

/-- C9 witness: two files named `clip.mov` get the distinct destinations
`clip.mov` and `clip_1.mov`. -/
theorem plan_group_destinations_nodup_witness :
    planGroupDestinations [mzF1, mzF2] ["pod", "episode_1"] mzFsEmpty =
      some [["pod", "episode_1", "clip.mov"],
        ["pod", "episode_1", "clip_1.mov"]] ∧
    ([["pod", "episode_1", "clip.mov"],
      ["pod", "episode_1", "clip_1.mov"]] : List FsPath).Nodup :=
  ⟨by decide,
    plan_group_destinations_nodup [mzF1, mzF2] ["pod", "episode_1"] mzFsEmpty
      _ (by decide)⟩

/-! ### Theorems: dry-run versus live materialization -/

theorem foldl_addMissing_structure :
    ∀ (l : List FsPath) (ds : List FsPath),
      ∃ new, l.foldl (fun ds q => if q ∈ ds then ds else ds ++ [q]) ds =
        ds ++ new ∧ ∀ q ∈ new, q ∈ l
  | [], ds => ⟨[], by simp, by simp⟩
  | q :: l, ds => by
    by_cases h : q ∈ ds
    · obtain ⟨new, hnew, hsub⟩ := foldl_addMissing_structure l ds
      refine ⟨new, ?_, fun x hx => List.mem_cons_of_mem _ (hsub x hx)⟩
      simpa [List.foldl_cons, h] using hnew
    · obtain ⟨new, hnew, hsub⟩ := foldl_addMissing_structure l (ds ++ [q])
      refine ⟨q :: new, ?_, ?_⟩
      · simp only [List.foldl_cons, if_neg h]
        rw [hnew, List.append_assoc]
        rfl
      · intro x hx
        rcases List.mem_cons.mp hx with rfl | h1
        · exact List.mem_cons_self _ _
        · exact List.mem_cons_of_mem _ (hsub x h1)

theorem pathPrefixChain_length {p q : FsPath} (h : q ∈ pathPrefixChain p) :
    q.length ≤ p.length := by
  unfold pathPrefixChain at h
  rw [List.mem_map] at h
  obtain ⟨i, _, rfl⟩ := h
  simp [List.length_take]

theorem mkdirParents_structure (fs : Fs) (p : FsPath) :
    ∃ new, (mkdirParentsExistOk fs p).dirs = fs.dirs ++ new ∧
      (∀ q ∈ new, q.length ≤ p.length) ∧
      (mkdirParentsExistOk fs p).files = fs.files := by
  obtain ⟨new, hnew, hsub⟩ :=
    foldl_addMissing_structure (pathPrefixChain p) fs.dirs
  exact ⟨new, hnew, fun q hq => pathPrefixChain_length (hsub q hq), rfl⟩

theorem mkdirParents_noop (fs : Fs) (p : FsPath)
    (h : ∀ q ∈ pathPrefixChain p, q ∈ fs.dirs) :
    mkdirParentsExistOk fs p = fs := by
  have hfold : ∀ (l : List FsPath) (ds : List FsPath), (∀ q ∈ l, q ∈ ds) →
      l.foldl (fun ds q => if q ∈ ds then ds else ds ++ [q]) ds = ds := by
    intro l
    induction l with
    | nil => intro ds _; rfl
    | cons q l ih =>
      intro ds hq
      simp only [List.foldl_cons, if_pos (hq q (List.mem_cons_self q l))]
      exact ih ds (fun x hx => hq x (List.mem_cons_of_mem _ hx))
  unfold mkdirParentsExistOk
  rw [hfold _ _ h]

theorem withName_length (p : FsPath) (hp : p ≠ []) (n : String) :
    (withName p n).length = p.length := by
  unfold withName
  rw [List.length_append, List.length_dropLast]
  have : 0 < p.length := List.length_pos.mpr hp
  simp
  omega

theorem pathExists_extra (fsD : Fs) (extra : List FsPath) (L : ℕ)
    (hex : ∀ e ∈ extra, e.length ≤ L) (p : FsPath) (hp : L < p.length) :
    pathExists ⟨fsD.dirs ++ extra, fsD.files⟩ p = pathExists fsD p := by
  unfold pathExists
  have hpe : p ∉ extra := fun hmem => absurd (hex p hmem) (by omega)
  rw [decide_eq_decide]
  dsimp only
  rw [List.mem_append]
  constructor
  · rintro ((h | h) | h)
    · exact Or.inl h
    · exact absurd h hpe
    · exact Or.inr h
  · rintro (h | h)
    · exact Or.inl (Or.inl h)
    · exact Or.inr h

theorem findFreeName_agree (fsD : Fs) (extra : List FsPath) (L : ℕ)
    (hex : ∀ e ∈ extra, e.length ≤ L)
    (reserved : List FsPath) (candidate : FsPath)
    (hcand : L < candidate.length) :
    ∀ (fuelD fuelL counter : ℕ) (c : FsPath), fuelD ≤ fuelL →
      findFreeName fsD reserved candidate fuelD counter = some c →
      findFreeName ⟨fsD.dirs ++ extra, fsD.files⟩ reserved candidate fuelL
        counter = some c
  | 0, _, counter, c => by
    intro _ h
    simp [findFreeName] at h
  | fuelD + 1, fuelL, counter, c => by
    intro hle h
    cases fuelL with
    | zero => omega
    | succ fuelL =>
      have hne : candidate ≠ [] := by
        intro hc
        rw [hc] at hcand
        simp at hcand
      rw [findFreeName] at h ⊢
      rw [pathExists_extra fsD extra L hex _
        (by rw [withName_length candidate hne]; exact hcand)]
      by_cases hcond : pathExists fsD
          (withName candidate ((splitStemSuffix (pathName candidate)).1 ++
            "_" ++ toString counter ++
            (splitStemSuffix (pathName candidate)).2)) = false ∧
          withName candidate ((splitStemSuffix (pathName candidate)).1 ++
            "_" ++ toString counter ++
            (splitStemSuffix (pathName candidate)).2) ∉ reserved
      · rw [if_pos hcond] at h ⊢
        exact h
      · rw [if_neg hcond] at h ⊢
        exact findFreeName_agree fsD extra L hex reserved candidate hcand
          fuelD fuelL (counter + 1) c (by omega) h

theorem planAux_agree (fsD : Fs) (extra : List FsPath) (L : ℕ)
    (hex : ∀ e ∈ extra, e.length ≤ L) (episodeDir : FsPath)
    (hdl : episodeDir.length = L) :
    ∀ (files : List MediaFile) (reserved planned : List FsPath)
      (out : List FsPath),
      planAux fsD episodeDir files reserved planned = some out →
      planAux ⟨fsD.dirs ++ extra, fsD.files⟩ episodeDir files reserved
        planned = some out
  | [], reserved, planned, out => by
    intro h
    rw [planAux] at h ⊢
    exact h
  | mf :: rest, reserved, planned, out => by
    intro h
    rw [planAux] at h ⊢
    dsimp only at h ⊢
    have hclen : (episodeDir ++ [pathName mf.path]).length = L + 1 := by
      rw [List.length_append, hdl]
      rfl
    rw [pathExists_extra fsD extra L hex _ (by rw [hclen]; omega)]
    by_cases hcond : pathExists fsD (episodeDir ++ [pathName mf.path]) =
        true ∨ episodeDir ++ [pathName mf.path] ∈ reserved
    · rw [if_pos hcond] at h ⊢
      cases hfree : findFreeName fsD reserved (episodeDir ++ [pathName mf.path])
          (fsD.dirs.length + fsD.files.length + reserved.length + 1) 1 with
      | none =>
        rw [hfree] at h
        cases h
      | some c =>
        rw [hfree] at h
        rw [findFreeName_agree fsD extra L hex reserved _
          (by rw [hclen]; omega) _
          ((fsD.dirs ++ extra).length + fsD.files.length +
            reserved.length + 1) 1 c
          (by rw [List.length_append]; omega) hfree]
        exact planAux_agree fsD extra L hex episodeDir hdl rest
          (reserved ++ [c]) (planned ++ [c]) out h
    · rw [if_neg hcond] at h ⊢
      exact planAux_agree fsD extra L hex episodeDir hdl rest
        (reserved ++ [episodeDir ++ [pathName mf.path]])
        (planned ++ [episodeDir ++ [pathName mf.path]]) out h

theorem planJobsLoop_dry_fs :
    ∀ (gds : List (MediaGroup × FsPath)) (fs : Fs) (gi : ℕ)
      (jobs : List (ℕ × MediaFile × FsPath))
      (out : Fs × List (ℕ × MediaFile × FsPath)),
      planJobsLoop true fs gi gds jobs = some out → out.1 = fs
  | [], fs, gi, jobs, out => by
    intro h
    rw [planJobsLoop] at h
    cases h
    rfl
  | (g, dir) :: rest, fs, gi, jobs, out => by
    intro h
    rw [planJobsLoop] at h
    rw [if_pos rfl] at h
    dsimp only at h
    cases hplan : planGroupDestinations g.files dir fs with
    | none =>
      rw [hplan] at h
      cases h
    | some dests =>
      rw [hplan] at h
      exact planJobsLoop_dry_fs rest fs (gi + 1) _ out h

theorem allocateLoop_shape (fs : Fs) (root : FsPath) :
    ∀ (fuel need nn : ℕ) (acc out : List FsPath),
      (∀ d ∈ acc, d.length = root.length + 1) →
      allocateLoop fs root fuel need nn acc = some out →
      ∀ d ∈ out, d.length = root.length + 1
  | 0, need, nn, acc, out => by
    intro _ h
    simp [allocateLoop] at h
  | fuel + 1, need, nn, acc, out => by
    intro hacc h
    rw [allocateLoop] at h
    by_cases hlen : acc.length ≥ need
    · rw [if_pos hlen] at h
      cases h
      exact hacc
    · rw [if_neg hlen] at h
      dsimp only at h
      by_cases hex : pathExists fs (root ++ [episodeName nn]) = true
      · rw [if_pos hex] at h
        exact allocateLoop_shape fs root fuel need (nn + 1) acc out hacc h
      · rw [if_neg hex] at h
        refine allocateLoop_shape fs root fuel need (nn + 1)
          (acc ++ [root ++ [episodeName nn]]) out ?_ h
        intro d hd
        rcases List.mem_append.mp hd with h1 | h1
        · exact hacc d h1
        · rw [List.mem_singleton.mp h1]
          rw [List.length_append]
          rfl

theorem planJobsLoop_agree :
    ∀ (gds : List (MediaGroup × FsPath)) (L : ℕ) (fsD : Fs)
      (extra : List FsPath) (gi : ℕ)
      (jobs : List (ℕ × MediaFile × FsPath))
      (outD outL : Fs × List (ℕ × MediaFile × FsPath)),
      (∀ e ∈ extra, e.length ≤ L) →
      (∀ gd ∈ gds, (gd : MediaGroup × FsPath).2.length = L) →
      planJobsLoop true fsD gi gds jobs = some outD →
      planJobsLoop false ⟨fsD.dirs ++ extra, fsD.files⟩ gi gds jobs =
        some outL →
      outD.2 = outL.2
  | [], L, fsD, extra, gi, jobs, outD, outL => by
    intro _ _ hD hL
    rw [planJobsLoop] at hD hL
    cases hD
    cases hL
    rfl
  | (g, dir) :: rest, L, fsD, extra, gi, jobs, outD, outL => by
    intro hex hlen hD hL
    rw [planJobsLoop] at hD hL
    rw [if_pos rfl] at hD
    dsimp only at hD
    have hdl : dir.length = L := hlen (g, dir) (List.mem_cons_self _ _)
    cases hplanD : planGroupDestinations g.files dir fsD with
    | none =>
      rw [hplanD] at hD
      cases hD
    | some dests =>
      rw [hplanD] at hD
      cases hmk : mkdirStrict ⟨fsD.dirs ++ extra, fsD.files⟩ dir with
      | none =>
        rw [show (if false = true then
            some (⟨fsD.dirs ++ extra, fsD.files⟩ : Fs)
          else mkdirStrict ⟨fsD.dirs ++ extra, fsD.files⟩ dir) =
            mkdirStrict ⟨fsD.dirs ++ extra, fsD.files⟩ dir by simp] at hL
        rw [hmk] at hL
        cases hL
      | some fsL1 =>
        rw [show (if false = true then
            some (⟨fsD.dirs ++ extra, fsD.files⟩ : Fs)
          else mkdirStrict ⟨fsD.dirs ++ extra, fsD.files⟩ dir) =
            mkdirStrict ⟨fsD.dirs ++ extra, fsD.files⟩ dir by simp] at hL
        rw [hmk] at hL
        dsimp only at hL
        have hfsL1 : fsL1 = mkdirParentsExistOk ⟨fsD.dirs ++ extra, fsD.files⟩
            dir := by
          unfold mkdirStrict at hmk
          by_cases hc : dir ∈ (⟨fsD.dirs ++ extra, fsD.files⟩ : Fs).dirs ∨
              dir ∈ (⟨fsD.dirs ++ extra, fsD.files⟩ : Fs).files
          · rw [if_pos hc] at hmk
            cases hmk
          · rw [if_neg hc] at hmk
            cases hmk
            rfl
        obtain ⟨new, hnewdirs, hnewlen, hnewfiles⟩ :=
          mkdirParents_structure ⟨fsD.dirs ++ extra, fsD.files⟩ dir
        have hfsL1' : fsL1 = ⟨fsD.dirs ++ (extra ++ new), fsD.files⟩ := by
          rw [hfsL1]
          cases hmp : mkdirParentsExistOk ⟨fsD.dirs ++ extra, fsD.files⟩ dir
          rw [hmp] at hnewdirs hnewfiles
          dsimp only at hnewdirs hnewfiles
          rw [hnewdirs, hnewfiles, List.append_assoc]
        have hexnew : ∀ e ∈ extra ++ new, e.length ≤ L := by
          intro e he
          rcases List.mem_append.mp he with h1 | h1
          · exact hex e h1
          · rw [← hdl]
            exact hnewlen e h1
        have hplanL1 : planGroupDestinations g.files dir fsL1 = some dests := by
          rw [hfsL1']
          exact planAux_agree fsD (extra ++ new) L hexnew dir hdl g.files []
            [] dests hplanD
        rw [hplanL1] at hL
        exact planJobsLoop_agree rest L fsD (extra ++ new) (gi + 1)
          (jobs ++ (List.zip g.files dests).map (fun fd => (gi, fd.1, fd.2)))
          outD outL hexnew
          (fun gd hgd => hlen gd (List.mem_cons_of_mem _ hgd))
          hD (hfsL1' ▸ hL)

/-- C8 (amended): on the same initial filesystem, a dry run computes the
same per-file `(group, source file, destination)` copy jobs as a live run
(whenever both complete), and the dry run's only filesystem effect is
creating the podcast-root directory chain; when the root chain already
exists, the dry run leaves the filesystem unchanged. -/
theorem move_groups_dry_run_equivalence (groups : List MediaGroup)
    (podcastRoot : FsPath) (fs fsD fsL : Fs)
    (jobsD jobsL : List (ℕ × MediaFile × FsPath))
    (hdry : moveGroupsToEpisodes true groups podcastRoot fs =
      some (fsD, jobsD))
    (hlive : moveGroupsToEpisodes false groups podcastRoot fs =
      some (fsL, jobsL)) :
    jobsD = jobsL ∧ fsD = mkdirParentsExistOk fs podcastRoot ∧
      ((∀ q ∈ pathPrefixChain podcastRoot, q ∈ fs.dirs) → fsD = fs) := by
  unfold moveGroupsToEpisodes at hdry hlive
  cases halloc : allocateEpisodeDirectories fs podcastRoot groups.length with
  | none =>
    rw [halloc] at hdry
    cases hdry
  | some pr =>
    obtain ⟨fs1, episodeDirs⟩ := pr
    rw [halloc] at hdry hlive
    dsimp only at hdry hlive
    unfold allocateEpisodeDirectories at halloc
    rw [Option.map_eq_some'] at halloc
    obtain ⟨eds, hloop, heq⟩ := halloc
    have hfs1 : fs1 = mkdirParentsExistOk fs podcastRoot :=
      (congrArg Prod.fst heq).symm
    have heds : eds = episodeDirs := congrArg Prod.snd heq
    rw [heds] at hloop
    have hdirlen : ∀ d ∈ episodeDirs, d.length = podcastRoot.length + 1 :=
      allocateLoop_shape _ _ _ _ _ [] episodeDirs (by simp) hloop
    have hzlen : ∀ gd ∈ List.zip groups episodeDirs,
        (gd : MediaGroup × FsPath).2.length = podcastRoot.length + 1 :=
      fun gd hgd => hdirlen gd.2 (List.of_mem_zip hgd).2
    have hfs1eta : (⟨fs1.dirs ++ [], fs1.files⟩ : Fs) = fs1 := by
      cases fs1
      simp
    have hjobs : jobsD = jobsL := by
      have := planJobsLoop_agree (List.zip groups episodeDirs)
        (podcastRoot.length + 1) fs1 [] 0 [] (fsD, jobsD) (fsL, jobsL)
        (by simp) hzlen hdry (by rw [hfs1eta]; exact hlive)
      exact this
    have hdfs : fsD = fs1 :=
      planJobsLoop_dry_fs (List.zip groups episodeDirs) fs1 0 [] (fsD, jobsD)
        hdry
    refine ⟨hjobs, by rw [hdfs, hfs1], ?_⟩
    intro hroot
    rw [hdfs, hfs1]
    exact mkdirParents_noop fs podcastRoot hroot

/-- C8 witness: dry and live runs on a filesystem that already has the
podcast root produce the same jobs, and the dry run leaves the filesystem
untouched. -/
theorem move_groups_dry_run_equivalence_witness :
    mzJobs = mzJobs ∧
      mzFsWithRoot = mkdirParentsExistOk mzFsWithRoot ["pod"] ∧
      ((∀ q ∈ pathPrefixChain (["pod"] : FsPath), q ∈ mzFsWithRoot.dirs) →
        mzFsWithRoot = mzFsWithRoot) :=
  move_groups_dry_run_equivalence mzGroups ["pod"] mzFsWithRoot mzFsWithRoot
    ⟨[["pod"], ["pod", "episode_1"]], []⟩ mzJobs mzJobs
    (by decide) (by decide)

/-- C8 counterexample: with the podcast root absent, even the dry run
mutates the filesystem — `allocate_episode_directories` creates the root
via `mkdir(parents=True, exist_ok=True)` — so "no filesystem mutation" as
stated fails. -/
theorem move_groups_dry_run_counterexample :
    moveGroupsToEpisodes true mzGroups ["pod"] mzFsEmpty =
      some (⟨[["pod"]], []⟩, mzJobs) ∧ (⟨[["pod"]], []⟩ : Fs) ≠ mzFsEmpty :=
  by decide

end Podcast
